import Mathlib

/-!
Verification development for a distance-vector routing network simulator.

The simulator consists of routers, each owning a distance vector
(a mapping destination address -> (next hop, cost)), inbound FIFO message
queues (one per router), and a network orchestrating synchronized rounds:
broadcast of distance vectors (send_dv) followed by queue draining (route).

Python dictionaries are modelled as insertion-ordered association lists
with unique keys: item assignment (setD) updates the value in place when
the key is present and appends at the end otherwise; lookup (lookupD)
returns the first binding.  Python integers are modelled as Int.  Fallible
dictionary subscripts (which raise KeyError in Python) are modelled with
Option.

One modelling note on packets: in the source, a distance-vector packet
stores a reference to the sender's mutable dictionary, not a copy.  The
dictionary object is mutated in place by every later update of the sender
and is rebound only by reset, which also empties every queue.  Hence, for
every reachable state, the table a receiver reads when it processes a
distance-vector packet is exactly the sender's distance vector at
processing time.  We model this by storing only the sender address in the
packet and fetching the sender's current distance vector when the packet
is processed.
-/

namespace DVR

/-- Association-list lookup: first binding for the key (Python `d[k]`). -/
def lookupD {κ : Type} [DecidableEq κ] {β : Type} : List (κ × β) → κ → Option β
  | [], _ => none
  | (k, v) :: rest, key => if k = key then some v else lookupD rest key

/-- Key membership (Python `k in d`). -/
def containsKey {κ : Type} [DecidableEq κ] {β : Type} (l : List (κ × β)) (key : κ) : Bool :=
  (lookupD l key).isSome

/-- Dictionary item assignment (Python `d[k] = v`): replace the binding in
place when the key is present, append at the end otherwise. -/
def setD {κ : Type} [DecidableEq κ] {β : Type} (l : List (κ × β)) (key : κ) (v : β) :
    List (κ × β) :=
  if containsKey l key then l.map (fun kv => (kv.1, if kv.1 = key then v else kv.2))
  else l ++ [(key, v)]

/-- The `inf` constant of the source: costs saturate at 16. -/
def inf : Int := 16

/-- A distance vector: destination -> (next hop, cost). -/
abbrev DV := List (String × (String × Int))

/-- The unit of transport: either a routing update or an application
message.  A DV packet carries only its sender's address; see the module
comment for why the table is fetched at processing time. -/
inductive Packet where
  | dvp (src dst : String)
  | http (src dst : String) (msg : String)
deriving DecidableEq

/-- Source address of a packet. -/
def Packet.src : Packet → String
  | .dvp s _ => s
  | .http s _ _ => s

/-- Destination address of a packet. -/
def Packet.dst : Packet → String
  | .dvp _ d => d
  | .http _ d _ => d

/-- Observable events corresponding to the simulator's console reports. -/
inductive Ev where
  | dropped (here src dst : String)
  | forwarded (here nh : String)
  | delivered (here src msg : String)
  | dvReceived (here src : String)
deriving DecidableEq

/-- A router: address, link-cost table, ordered list of neighbor addresses
(the keys of the out_queues mapping, fixed at construction), distance
vector and convergence counter. -/
structure Router where
  addr : String
  costs : List (String × Int)
  outs : List String
  dv : DV
  converged : Nat
deriving DecidableEq

/-- Router.reset: recompute the distance vector from the link costs (each
direct neighbor maps to (neighbor, cost)) and set the counter to 2.  The
queue draining performed by the Python method is modelled at the network
level (Network.reset). -/
def Router.reset (r : Router) : Router :=
  { r with dv := r.costs.map (fun dc => (dc.1, (dc.1, dc.2))), converged := 2 }

/-- First statement of update_dv: if `src` is unknown, insert it with cost
`inf`. -/
def ensure_src (dv : DV) (src : String) : DV :=
  if containsKey dv src then dv else setD dv src (src, inf)

/-- The "add new entries" loop of update_dv: destinations of the advertised
table that are absent locally are inserted with the advertised next hop and
cost `dv[src].cost + advertised cost`; each insertion sets the counter
to 2.  The lookup of `src` is fallible (KeyError in Python). -/
def learn_pass (src : String) : DV → Nat → DV → Option (DV × Nat)
  | dv, cv, [] => some (dv, cv)
  | dv, cv, (dst, (nh, c)) :: rest =>
    if containsKey dv dst then learn_pass src dv cv rest
    else
      match lookupD dv src with
      | none => none
      | some (_, cs) => learn_pass src (setD dv dst (nh, cs + c)) 2 rest

/-- One entry of the "upper-bound entries" loop: costs above `inf` are
clamped to `inf`, and the router's own entry is forced to (self, 0)
(the self check runs second, so it wins). -/
def clamp_entry (self dst : String) (e : String × Int) : String × Int :=
  if dst = self then (dst, 0)
  else if e.2 > inf then (e.1, inf)
  else e

/-- The "upper-bound entries" loop of update_dv applied to every entry. -/
def clamp_pass (self : String) (dv : DV) : DV :=
  dv.map (fun de => (de.1, clamp_entry self de.1 de.2))

/-- The Bellman-Ford relaxation loop of update_dv: for every advertised
destination other than the router itself, if `dv[src].cost + advertised
cost < dv[dst].cost`, replace the entry with (src, that sum) and set the
counter to 2.  Both subscripts are fallible. -/
def relax_pass (self src : String) : DV → Nat → DV → Option (DV × Nat)
  | dv, cv, [] => some (dv, cv)
  | dv, cv, (dst, (_, c)) :: rest =>
    if dst = self then relax_pass self src dv cv rest
    else
      match lookupD dv src, lookupD dv dst with
      | some (_, cs), some (_, cd) =>
        if cs + c < cd then relax_pass self src (setD dv dst (src, cs + c)) 2 rest
        else relax_pass self src dv cv rest
      | _, _ => none

/-- State of update_dv after the src insertion and the "add new entries"
loop (exposed so that theorems can speak about the intermediate state the
relaxation loop starts from, after the first clamp). -/
def Router.after_learn (r : Router) (src : String) (table : DV) : Option (DV × Nat) :=
  learn_pass src (ensure_src r.dv src) r.converged table

/-- Router.update_dv: insert `src` if unknown, add new destinations, clamp,
relax, clamp again. -/
def Router.update_dv (r : Router) (src : String) (table : DV) : Option Router :=
  match r.after_learn src table with
  | none => none
  | some (dv1, cv1) =>
    match relax_pass r.addr src (clamp_pass r.addr dv1) cv1 table with
    | none => none
    | some (dv3, cv3) => some { r with dv := clamp_pass r.addr dv3, converged := cv3 }

/-- The network: routers and inbound queues, both keyed by address and in
construction order. -/
structure Network where
  routers : List (String × Router)
  queues : List (String × List Packet)
deriving DecidableEq

/-- Append a packet to the queue of the given address (Queue.put). -/
def enqueue (net : Network) (a : String) (p : Packet) : Network :=
  match lookupD net.queues a with
  | none => net
  | some q => { net with queues := setD net.queues a (q ++ [p]) }

/-- Router.send_dv for the router at address `a`: no-op when the counter
is 0; otherwise decrement it and enqueue a distance-vector packet onto
every neighbor's queue. -/
def send_one (net : Network) (a : String) : Network :=
  match lookupD net.routers a with
  | none => net
  | some r =>
    if r.converged = 0 then net
    else
      let net1 := { net with routers := setD net.routers a { r with converged := r.converged - 1 } }
      r.outs.foldl (fun acc d => enqueue acc d (Packet.dvp a d)) net1

/-- Network.send_dv: every router sends, in router order. -/
def Network.send_dv (net : Network) : Network :=
  (net.routers.map Prod.fst).foldl send_one net

/-- Router.read_packet for router `r` at address `a`: a distance-vector
packet triggers update_dv with the sender's current table (see module
comment); an application message is delivered.  The packet variant set is
closed, so the source's "unknown packet type" error branch is
unrepresentable. -/
def read_packet (net : Network) (a : String) (r : Router) (p : Packet) :
    Option (Network × List Ev) :=
  match p with
  | .dvp src _ =>
    match lookupD net.routers src with
    | none => none
    | some sender =>
      match r.update_dv src sender.dv with
      | none => none
      | some r' => some ({ net with routers := setD net.routers a r' }, [Ev.dvReceived a src])
  | .http src _ msg => some (net, [Ev.delivered a src msg])

/-- The body of Router.route's loop for one dequeued packet: deliver it
locally when addressed to this router, drop it when its destination is
absent from the distance vector, forward it to the next hop otherwise.
Forwarding subscripts out_queues (the `outs` list), which is fallible. -/
def process_packet (net : Network) (a : String) (p : Packet) : Option (Network × List Ev) :=
  match lookupD net.routers a with
  | none => none
  | some r =>
    if p.dst = a then read_packet net a r p
    else if containsKey r.dv p.dst = false then some (net, [Ev.dropped a p.src p.dst])
    else
      match lookupD r.dv p.dst with
      | none => none
      | some (nh, _) =>
        if r.outs.contains nh then some (enqueue net nh p, [Ev.forwarded a nh])
        else none

/-- Router.route for the router at address `a`: drain the inbound queue,
processing packets in arrival order.  The source's `while not empty` loop
is modelled with fuel: one unit per processed packet; `none` when the fuel
is exhausted before the queue empties or a subscript fails. -/
def route_one (a : String) : Nat → Network → Option (Network × List Ev)
  | 0, net =>
    match lookupD net.queues a with
    | some [] => some (net, [])
    | _ => none
  | fuel + 1, net =>
    match lookupD net.queues a with
    | none => none
    | some [] => some (net, [])
    | some (p :: rest) =>
      let net1 := { net with queues := setD net.queues a rest }
      match process_packet net1 a p with
      | none => none
      | some (net2, evs) =>
        match route_one a fuel net2 with
        | none => none
        | some (net3, evs') => some (net3, evs ++ evs')

/-- Network.route: every router drains its queue, in router order.  Each
drain is given one unit of fuel per packet in the queue at its start: it
empties the queue exactly when the drain cannot run forever (a packet
forwarded back into the queue being drained — a genuine endless loop in
the source — yields `none`). -/
def Network.route (net : Network) : Option (Network × List Ev) :=
  (net.routers.map Prod.fst).foldl
    (fun acc a =>
      match acc with
      | none => none
      | some (n, evs) =>
        match route_one a ((lookupD n.queues a).getD []).length n with
        | none => none
        | some (n', evs') => some (n', evs ++ evs'))
    (some (net, []))

/-- Network.is_stable: every convergence counter is 0. -/
def Network.is_stable (net : Network) : Bool :=
  net.routers.all (fun ar => ar.2.converged == 0)

/-- Network.step: send_dv then route. -/
def Network.step (net : Network) : Option Network :=
  match Network.route net.send_dv with
  | none => none
  | some (n, _) => some n

/-- Network.run_until_converged: step until stable, counting steps.  The
source's `while` loop is modelled with fuel. -/
def Network.run_until_converged : Nat → Network → Option (Nat × Network)
  | 0, net => if net.is_stable then some (0, net) else none
  | f + 1, net =>
    if net.is_stable then some (0, net)
    else
      match net.step with
      | none => none
      | some net' =>
        match Network.run_until_converged f net' with
        | none => none
        | some (n, m) => some (n + 1, m)

/-- Network.reset: reset every router; every queue is emptied (each
router's reset drains its own queue). -/
def Network.reset (net : Network) : Network :=
  { routers := net.routers.map (fun ar => (ar.1, ar.2.reset)),
    queues := net.queues.map (fun aq => (aq.1, [])) }

/-- Insertion-order deduplicating accumulation of addresses (the source
uses a Python set; we fix first-appearance order as the iteration order). -/
def addAddr (l : List String) (x : String) : List String :=
  if l.contains x then l else l ++ [x]

/-- Address universe of a topology: union of all edge endpoints. -/
def addrsOf (edges : List (String × String × Int)) : List String :=
  edges.foldl (fun acc e => addAddr (addAddr acc e.1) e.2.1) []

/-- The network constructor's `costs` dictionary, keyed by (src, dst);
later duplicate lines overwrite earlier ones. -/
def buildCosts (edges : List (String × String × Int)) : List ((String × String) × Int) :=
  edges.foldl (fun acc e => setD acc (e.1, e.2.1) e.2.2) []

/-- Construction of one router: its link costs are the outgoing edges, its
neighbor list their destinations, and its initial state comes from reset
(as in the source's constructor). -/
def mkRouter (cs : List ((String × String) × Int)) (a : String) : Router :=
  let myCosts := cs.filterMap (fun pc => if pc.1.1 = a then some (pc.1.2, pc.2) else none)
  Router.reset { addr := a, costs := myCosts, outs := myCosts.map Prod.fst, dv := [], converged := 0 }

/-- Network construction from a topology (a list of directed edges). -/
def build (edges : List (String × String × Int)) : Network :=
  let as := addrsOf edges
  let cs := buildCosts edges
  { routers := as.map (fun a => (a, mkRouter cs a)),
    queues := as.map (fun a => (a, [])) }

/-- Driver entry point "send message": put an application packet on the
queue of the *source* address (as the source's menu does). -/
def send_message (net : Network) (src dst msg : String) : Network :=
  enqueue net src (Packet.http src dst msg)

/-- Driver entry point "change link cost": update the link-cost table;
insert a (dst, inf) distance-vector entry when dst is absent; when the new
cost is lower than the current distance-vector cost, set the entry to
(dst, cost) and force the counter to 2. -/
def change_cost (net : Network) (src dst : String) (c : Int) : Option Network :=
  match lookupD net.routers src with
  | none => none
  | some r =>
    let r1 := { r with costs := setD r.costs dst c }
    let r2 := if containsKey r1.dv dst then r1 else { r1 with dv := setD r1.dv dst (dst, inf) }
    match lookupD r2.dv dst with
    | none => none
    | some (_, old) =>
      if c < old then
        let r3 := { r2 with dv := setD r2.dv dst (dst, c), converged := 2 }
        some { net with routers := setD net.routers src r3 }
      else
        some { net with routers := setD net.routers src r2 }

/-- All inbound queues are empty. -/
def Network.queuesEmpty (net : Network) : Bool :=
  net.queues.all (fun aq => aq.2.isEmpty)

/-! ### Termination measure for run_until_converged

The convergence argument: every assignment of 2 to a convergence counter
inside update_dv comes with a strict decrease of a global potential
(missing entries weigh 17, present entries weigh their cost clamped into
[0, 16]); the potential never increases; and a step that leaves the
potential unchanged decrements every positive counter.  The definitions
below set up that potential. -/

/-- Weight of one (possibly absent) distance-vector entry. -/
def wEntry : Option (String × Int) → Nat
  | none => 17
  | some e => min e.2.toNat 16

/-- Potential of a distance vector over a fixed address universe. -/
def phiDV (As : List String) (dv : DV) : Nat :=
  (As.map (fun d => wEntry (lookupD dv d))).sum

/-- Potential of a network: sum of the router potentials. -/
def phiNet (As : List String) (net : Network) : Nat :=
  (As.map (fun a =>
    match lookupD net.routers a with
    | none => 0
    | some r => phiDV As r.dv)).sum

/-- Sum of the convergence counters. -/
def convSum (As : List String) (net : Network) : Nat :=
  (As.map (fun a =>
    match lookupD net.routers a with
    | none => 0
    | some r => r.converged)).sum

/-- Lexicographic termination measure, flattened. -/
def measureNet (As : List String) (net : Network) : Nat :=
  phiNet As net * (2 * As.length + 1) + convSum As net

/-- Effect of send_dv on a router's own state: decrement a positive
counter, leave a zero counter alone. -/
def sendAdj (r : Router) : Router :=
  if r.converged = 0 then r else { r with converged := r.converged - 1 }

/-- The state invariant maintained by a converging run: duplicate-free and
aligned key lists, routers that carry their own key as address, distance
vectors with known non-negative-cost destinations, duplicate-free neighbor
lists over known addresses, counters at most 2, and queues holding only
distance-vector packets addressed to their owner and sent by a known
router. -/
structure NetInv (net : Network) : Prop where
  ndk : (net.routers.map Prod.fst).Nodup
  qkeys : net.queues.map Prod.fst = net.routers.map Prod.fst
  raddr : ∀ p ∈ net.routers, p.2.addr = p.1
  rdvkeys : ∀ p ∈ net.routers, ∀ q ∈ p.2.dv, q.1 ∈ net.routers.map Prod.fst
  rdvnn : ∀ p ∈ net.routers, ∀ q ∈ p.2.dv, 0 ≤ q.2.2
  routs : ∀ p ∈ net.routers, ∀ d ∈ p.2.outs, d ∈ net.routers.map Prod.fst
  routsnd : ∀ p ∈ net.routers, p.2.outs.Nodup
  rconv : ∀ p ∈ net.routers, p.2.converged ≤ 2
  qpok : ∀ p ∈ net.queues, ∀ pk ∈ p.2, ∃ s, pk = Packet.dvp s p.1 ∧
    s ∈ net.routers.map Prod.fst

end DVR

namespace DVR

/-! ### Lemmas about the dictionary model -/

theorem lookupD_mapVal {κ β : Type} [DecidableEq κ] (f : κ → β → β) :
    ∀ (l : List (κ × β)) (k : κ),
      lookupD (l.map (fun kv => (kv.1, f kv.1 kv.2))) k = (lookupD l k).map (f k)
  | [], _ => rfl
  | (a, b) :: t, k => by
    by_cases h : a = k
    · subst h; simp [lookupD]
    · simp [lookupD, h, lookupD_mapVal f t k]

theorem lookupD_append {κ β : Type} [DecidableEq κ] :
    ∀ (l₁ l₂ : List (κ × β)) (k : κ),
      lookupD (l₁ ++ l₂) k =
        match lookupD l₁ k with
        | some v => some v
        | none => lookupD l₂ k
  | [], _, _ => rfl
  | (a, b) :: t, l₂, k => by
    by_cases h : a = k
    · subst h; simp [lookupD]
    · simp [lookupD, h, lookupD_append t l₂ k]

theorem lookupD_setD_self {κ β : Type} [DecidableEq κ] (l : List (κ × β)) (k : κ) (v : β) :
    lookupD (setD l k v) k = some v := by
  unfold setD
  by_cases h : containsKey l k
  · rw [if_pos h, lookupD_mapVal (fun a w => if a = k then v else w) l k]
    unfold containsKey at h
    cases hl : lookupD l k with
    | none => rw [hl] at h; simp at h
    | some w => simp
  · rw [if_neg h, lookupD_append]
    unfold containsKey at h
    cases hl : lookupD l k with
    | none => simp [lookupD]
    | some w => rw [hl] at h; simp at h

theorem lookupD_setD_ne {κ β : Type} [DecidableEq κ] (l : List (κ × β)) (k k' : κ) (v : β)
    (h : k' ≠ k) : lookupD (setD l k v) k' = lookupD l k' := by
  unfold setD
  by_cases hc : containsKey l k
  · rw [if_pos hc, lookupD_mapVal (fun a w => if a = k then v else w) l k']
    cases lookupD l k' with
    | none => rfl
    | some w => simp [h]
  · rw [if_neg hc, lookupD_append]
    cases hl : lookupD l k' with
    | none => simp [lookupD, Ne.symm h]
    | some w => simp

theorem containsKey_setD_self {κ β : Type} [DecidableEq κ] (l : List (κ × β)) (k : κ) (v : β) :
    containsKey (setD l k v) k = true := by
  unfold containsKey; rw [lookupD_setD_self]; rfl

theorem containsKey_setD_of {κ β : Type} [DecidableEq κ] (l : List (κ × β)) (k k' : κ) (v : β)
    (h : containsKey l k' = true) : containsKey (setD l k v) k' = true := by
  by_cases he : k' = k
  · subst he; exact containsKey_setD_self l k' v
  · unfold containsKey; rw [lookupD_setD_ne l k k' v he]; exact h

theorem lookupD_clamp (s : String) (dv : DV) (k : String) :
    lookupD (clamp_pass s dv) k = (lookupD dv k).map (clamp_entry s k) :=
  lookupD_mapVal (clamp_entry s) dv k

theorem containsKey_clamp (s : String) (dv : DV) (k : String) :
    containsKey (clamp_pass s dv) k = containsKey dv k := by
  unfold containsKey; rw [lookupD_clamp]; cases lookupD dv k <;> rfl

end DVR

namespace DVR

/-! ### Facts about update_dv used by several claims -/

theorem update_dv_shape (r : Router) (src : String) (table : DV) (r' : Router)
    (hu : r.update_dv src table = some r') :
    ∃ dv1 cv1 dv3 cv3,
      r.after_learn src table = some (dv1, cv1) ∧
      relax_pass r.addr src (clamp_pass r.addr dv1) cv1 table = some (dv3, cv3) ∧
      r' = { r with dv := clamp_pass r.addr dv3, converged := cv3 } := by
  unfold Router.update_dv at hu
  cases hl : r.after_learn src table with
  | none => rw [hl] at hu; exact absurd hu (by simp)
  | some q =>
    obtain ⟨dv1, cv1⟩ := q
    rw [hl] at hu
    dsimp only at hu
    cases hx : relax_pass r.addr src (clamp_pass r.addr dv1) cv1 table with
    | none => rw [hx] at hu; exact absurd hu (by simp)
    | some q2 =>
      obtain ⟨dv3, cv3⟩ := q2
      rw [hx] at hu
      dsimp only at hu
      exact ⟨dv1, cv1, dv3, cv3, rfl, hx, by simpa using hu.symm⟩

/-- C1 (amended): after any update_dv call, the entry for the router's own
address, when present, is (self, 0): the final clamp loop forces it. -/
theorem C1_self_route (r : Router) (src : String) (table : DV) (r' : Router)
    (nh : String) (c : Int)
    (hu : r.update_dv src table = some r')
    (hl : lookupD r'.dv r.addr = some (nh, c)) :
    nh = r.addr ∧ c = 0 := by
  obtain ⟨dv1, cv1, dv3, cv3, _, _, hr⟩ := update_dv_shape r src table r' hu
  subst hr
  simp only [lookupD_clamp] at hl
  cases hd : lookupD dv3 r.addr with
  | none => rw [hd] at hl; simp at hl
  | some e =>
    rw [hd] at hl
    simp only [Option.map] at hl
    rw [clamp_entry, if_pos rfl] at hl
    simp only [Option.some_inj, Prod.mk.injEq] at hl
    exact ⟨hl.1.symm, hl.2.symm⟩

theorem C1_witness : "A" = "A" ∧ (0 : Int) = 0 :=
  C1_self_route ⟨"A", [("B", 1)], ["B"], [("B", ("B", 1)), ("A", ("A", 5))], 2⟩ "B" []
    ⟨"A", [("B", 1)], ["B"], [("B", ("B", 1)), ("A", ("A", 0))], 2⟩ "A" 0 rfl rfl

/-- C1 counterexample: reset (also run at construction) does not create a
self entry: a router whose link costs do not mention its own address has no
entry for itself afterwards, refuting the invariant "at every point after
any operation". -/
theorem C1_counterexample :
    (Router.reset ⟨"A", [("B", 1)], ["B"], [], 0⟩).addr = "A" ∧
    lookupD (Router.reset ⟨"A", [("B", 1)], ["B"], [], 0⟩).dv "A" = none :=
  ⟨rfl, rfl⟩

/-- C6 (amended): after any update_dv call no entry's cost exceeds `inf`:
the final clamp loop bounds every entry. -/
theorem C6_upper_bound (r : Router) (src : String) (table : DV) (r' : Router)
    (d nh : String) (c : Int)
    (hu : r.update_dv src table = some r')
    (hl : lookupD r'.dv d = some (nh, c)) :
    c ≤ inf := by
  obtain ⟨dv1, cv1, dv3, cv3, _, _, hr⟩ := update_dv_shape r src table r' hu
  subst hr
  simp only [lookupD_clamp] at hl
  cases hd : lookupD dv3 d with
  | none => rw [hd] at hl; simp at hl
  | some e =>
    rw [hd] at hl
    simp only [Option.map] at hl
    rw [clamp_entry] at hl
    by_cases h1 : d = r.addr
    · rw [if_pos h1] at hl
      simp only [Option.some_inj, Prod.mk.injEq] at hl
      rw [← hl.2]; decide
    · rw [if_neg h1] at hl
      by_cases h2 : e.2 > inf
      · rw [if_pos h2] at hl
        simp only [Option.some_inj, Prod.mk.injEq] at hl
        rw [← hl.2]
      · rw [if_neg h2] at hl
        simp only [Option.some_inj] at hl
        rw [hl] at h2
        exact le_of_not_lt h2

theorem C6_witness : (1 : Int) ≤ inf :=
  C6_upper_bound ⟨"A", [("B", 1)], ["B"], [("B", ("B", 1))], 2⟩ "B" []
    ⟨"A", [("B", 1)], ["B"], [("B", ("B", 1))], 2⟩ "B" "B" 1 rfl rfl

/-- C6 counterexample: reset copies link costs into the distance vector
without clamping, so a link cost above `inf` (here 17) yields an entry
whose cost exceeds `inf` in the state immediately after reset, refuting
the quantification over that state. -/
theorem C6_counterexample :
    lookupD (Router.reset ⟨"A", [("B", 17)], ["B"], [], 0⟩).dv "B" = some ("B", 17) ∧
    inf < 17 :=
  ⟨rfl, by decide⟩

/-- C5: evaluating update_dv at a router A (with neighbor B at cost 1)
processing the table advertised by B containing destination C with next
hop C and cost 5: the new entry is stored with the *advertised* next hop C
and cost 6, not with next hop B = src as the claim states. -/
theorem C5_learned_next_hop :
    (Router.update_dv ⟨"A", [("B", 1)], ["B"], [("B", ("B", 1))], 2⟩ "B"
        [("C", ("C", 5))]).map (fun r => lookupD r.dv "C") = some (some ("C", 6)) ∧
    "C" ≠ "B" :=
  ⟨rfl, by decide⟩

end DVR

namespace DVR

/-! ### Totality of the update algorithm -/

theorem containsKey_ensure_self (dv : DV) (src : String) :
    containsKey (ensure_src dv src) src = true := by
  unfold ensure_src
  by_cases h : containsKey dv src
  · rw [if_pos h]; exact h
  · rw [if_neg h]; exact containsKey_setD_self dv src _

theorem containsKey_ensure_of (dv : DV) (src k : String) (h : containsKey dv k = true) :
    containsKey (ensure_src dv src) k = true := by
  unfold ensure_src
  by_cases hc : containsKey dv src
  · rw [if_pos hc]; exact h
  · rw [if_neg hc]; exact containsKey_setD_of dv src k _ h

theorem learn_pass_isSome (src : String) :
    ∀ (t : DV) (dv : DV) (cv : Nat), containsKey dv src = true →
      (learn_pass src dv cv t).isSome = true
  | [], dv, cv, _ => rfl
  | (dst, (nh, c)) :: rest, dv, cv, h => by
    unfold learn_pass
    by_cases hd : containsKey dv dst
    · rw [if_pos hd]; exact learn_pass_isSome src rest dv cv h
    · rw [if_neg hd]
      cases hs : lookupD dv src with
      | none => unfold containsKey at h; rw [hs] at h; simp at h
      | some e =>
        obtain ⟨a, cs⟩ := e
        exact learn_pass_isSome src rest (setD dv dst (nh, cs + c)) 2
          (containsKey_setD_of dv dst src _ h)

theorem learn_pass_contains (src : String) :
    ∀ (t : DV) (dv : DV) (cv : Nat) (dv' : DV) (cv' : Nat),
      learn_pass src dv cv t = some (dv', cv') →
      ∀ k, containsKey dv k = true → containsKey dv' k = true
  | [], dv, cv, dv', cv', h, k, hk => by
    unfold learn_pass at h; simp at h; rw [← h.1]; exact hk
  | (dst, (nh, c)) :: rest, dv, cv, dv', cv', h, k, hk => by
    unfold learn_pass at h
    by_cases hd : containsKey dv dst
    · rw [if_pos hd] at h
      exact learn_pass_contains src rest dv cv dv' cv' h k hk
    · rw [if_neg hd] at h
      cases hs : lookupD dv src with
      | none => rw [hs] at h; simp at h
      | some e =>
        obtain ⟨a, cs⟩ := e
        rw [hs] at h
        exact learn_pass_contains src rest (setD dv dst (nh, cs + c)) 2 dv' cv' h k
          (containsKey_setD_of dv dst k _ hk)

theorem learn_pass_contains_table (src : String) :
    ∀ (t : DV) (dv : DV) (cv : Nat) (dv' : DV) (cv' : Nat),
      learn_pass src dv cv t = some (dv', cv') →
      ∀ p ∈ t, containsKey dv' p.1 = true
  | [], _, _, _, _, _, p, hp => absurd hp (List.not_mem_nil p)
  | (dst, (nh, c)) :: rest, dv, cv, dv', cv', h, p, hp => by
    unfold learn_pass at h
    by_cases hd : containsKey dv dst
    · rw [if_pos hd] at h
      rcases List.mem_cons.mp hp with he | ht
      · rw [he]
        exact learn_pass_contains src rest dv cv dv' cv' h dst hd
      · exact learn_pass_contains_table src rest dv cv dv' cv' h p ht
    · rw [if_neg hd] at h
      cases hs : lookupD dv src with
      | none => rw [hs] at h; simp at h
      | some e =>
        obtain ⟨a, cs⟩ := e
        rw [hs] at h
        rcases List.mem_cons.mp hp with he | ht
        · rw [he]
          exact learn_pass_contains src rest _ 2 dv' cv' h dst (containsKey_setD_self dv dst _)
        · exact learn_pass_contains_table src rest _ 2 dv' cv' h p ht

theorem relax_pass_isSome (self src : String) :
    ∀ (t : DV) (dv : DV) (cv : Nat), containsKey dv src = true →
      (∀ p ∈ t, containsKey dv p.1 = true) →
      (relax_pass self src dv cv t).isSome = true
  | [], dv, cv, _, _ => rfl
  | (dst, (nh, c)) :: rest, dv, cv, hs, ht => by
    unfold relax_pass
    by_cases hself : dst = self
    · rw [if_pos hself]
      exact relax_pass_isSome self src rest dv cv hs
        (fun p hp => ht p (List.mem_cons_of_mem _ hp))
    · rw [if_neg hself]
      have hdst : containsKey dv dst = true := ht (dst, (nh, c)) (List.mem_cons_self _ _)
      cases h1 : lookupD dv src with
      | none => unfold containsKey at hs; rw [h1] at hs; simp at hs
      | some e1 =>
        obtain ⟨a1, cs⟩ := e1
        cases h2 : lookupD dv dst with
        | none => unfold containsKey at hdst; rw [h2] at hdst; simp at hdst
        | some e2 =>
          obtain ⟨a2, cd⟩ := e2
          dsimp only
          by_cases hlt : cs + c < cd
          · rw [if_pos hlt]
            exact relax_pass_isSome self src rest (setD dv dst (src, cs + c)) 2
              (containsKey_setD_of dv dst src _ hs)
              (fun p hp => containsKey_setD_of dv dst p.1 _ (ht p (List.mem_cons_of_mem _ hp)))
          · rw [if_neg hlt]
            exact relax_pass_isSome self src rest dv cv hs
              (fun p hp => ht p (List.mem_cons_of_mem _ hp))

theorem update_dv_isSome (r : Router) (src : String) (table : DV) :
    (r.update_dv src table).isSome = true := by
  unfold Router.update_dv
  have h0 : containsKey (ensure_src r.dv src) src = true := containsKey_ensure_self r.dv src
  have h1 : (r.after_learn src table).isSome = true :=
    learn_pass_isSome src table (ensure_src r.dv src) r.converged h0
  cases hl : r.after_learn src table with
  | none => rw [hl] at h1; simp at h1
  | some q =>
    obtain ⟨dv1, cv1⟩ := q
    have hl' : learn_pass src (ensure_src r.dv src) r.converged table = some (dv1, cv1) := hl
    have hsrc1 : containsKey dv1 src = true :=
      learn_pass_contains src table _ _ _ _ hl' src h0
    have htab1 : ∀ p ∈ table, containsKey dv1 p.1 = true :=
      learn_pass_contains_table src table _ _ _ _ hl'
    have h2 : (relax_pass r.addr src (clamp_pass r.addr dv1) cv1 table).isSome = true :=
      relax_pass_isSome r.addr src table (clamp_pass r.addr dv1) cv1
        (by rw [containsKey_clamp]; exact hsrc1)
        (fun p hp => by rw [containsKey_clamp]; exact htab1 p hp)
    cases hx : relax_pass r.addr src (clamp_pass r.addr dv1) cv1 table with
    | none => rw [hx] at h2; simp at h2
    | some q2 =>
      obtain ⟨dv3, cv3⟩ := q2
      dsimp only
      rw [hx]
      rfl

/-- C10: update_dv never fails with a missing key: the source address is
inserted before any lookup, and every destination read by the relaxation
loop is already present or was inserted by the learn loop. -/
theorem C10_update_dv_total (r : Router) (src : String) (table : DV) :
    (r.update_dv src table).isSome = true :=
  update_dv_isSome r src table

end DVR

namespace DVR

/-- C9 (amended): when a dequeued packet's destination is absent from the
distance vector *and differs from the router's own address*, the packet is
dropped: the network state is unchanged apart from the dequeue (so nothing
is delivered or forwarded to any channel), the only event is the drop, and
draining continues with the rest of the queue. -/
theorem C9_drop_correct (net : Network) (a : String) (r : Router) (p : Packet)
    (rest : List Packet) (fuel : Nat)
    (hr : lookupD net.routers a = some r)
    (hq : lookupD net.queues a = some (p :: rest))
    (hd : p.dst ≠ a)
    (hm : containsKey r.dv p.dst = false) :
    process_packet { net with queues := setD net.queues a rest } a p =
      some ({ net with queues := setD net.queues a rest }, [Ev.dropped a p.src p.dst]) ∧
    route_one a (fuel + 1) net =
      match route_one a fuel { net with queues := setD net.queues a rest } with
      | none => none
      | some (n, evs) => some (n, Ev.dropped a p.src p.dst :: evs) := by
  have hp : process_packet { net with queues := setD net.queues a rest } a p =
      some ({ net with queues := setD net.queues a rest }, [Ev.dropped a p.src p.dst]) := by
    unfold process_packet
    dsimp only
    rw [hr]
    dsimp only
    rw [if_neg hd, if_pos hm]
  refine ⟨hp, ?_⟩
  conv_lhs => rw [route_one]
  rw [hq]
  dsimp only
  rw [hp]
  cases hro : route_one a fuel { net with queues := setD net.queues a rest } with
  | none => dsimp only; rw [hro]
  | some q => obtain ⟨n, evs⟩ := q; dsimp only; rw [hro]; rfl

theorem C9_witness :
    process_packet
        { routers := (build [("A", "B", 1), ("B", "A", 1)]).routers,
          queues := [("A", []), ("B", [])] } "A" (Packet.http "A" "Z" "hi") =
      some ({ routers := (build [("A", "B", 1), ("B", "A", 1)]).routers,
              queues := [("A", []), ("B", [])] }, [Ev.dropped "A" "A" "Z"]) ∧
    route_one "A" 1 (send_message (build [("A", "B", 1), ("B", "A", 1)]) "A" "Z" "hi") =
      some ({ routers := (build [("A", "B", 1), ("B", "A", 1)]).routers,
              queues := [("A", []), ("B", [])] }, [Ev.dropped "A" "A" "Z"]) := by
  have h := C9_drop_correct
    (send_message (build [("A", "B", 1), ("B", "A", 1)]) "A" "Z" "hi") "A"
    (mkRouter (buildCosts [("A", "B", 1), ("B", "A", 1)]) "A")
    (Packet.http "A" "Z" "hi") [] 0 rfl rfl (by decide) (by decide)
  exact ⟨h.1.trans rfl, (h.2.trans rfl : _)⟩

/-- C9 counterexample: a dequeued packet whose destination is absent from
the router's distance vector but equals the router's own address is
*delivered*, not dropped (after reset a router has no entry for itself),
refuting the claim as universally stated. -/
theorem C9_counterexample :
    route_one "A" 1 (send_message (build [("A", "B", 1), ("B", "A", 1)]) "A" "A" "hi") =
      some (build [("A", "B", 1), ("B", "A", 1)], [Ev.delivered "A" "A" "hi"]) ∧
    (lookupD (build [("A", "B", 1), ("B", "A", 1)]).routers "A").map
      (fun r => containsKey r.dv "A") = some false :=
  ⟨rfl, rfl⟩

end DVR

namespace DVR

theorem lookupD_mem {κ β : Type} [DecidableEq κ] :
    ∀ (l : List (κ × β)) (k : κ) (v : β), lookupD l k = some v → (k, v) ∈ l
  | [], _, _, h => by simp [lookupD] at h
  | (a, b) :: t, k, v, h => by
    unfold lookupD at h
    by_cases ha : a = k
    · rw [if_pos ha] at h
      subst ha
      simp only [Option.some_inj] at h
      rw [h]
      exact List.mem_cons_self _ _
    · rw [if_neg ha] at h
      exact List.mem_cons_of_mem _ (lookupD_mem t k v h)

theorem foldl_fixed {α β : Type} (f : α → β → α) (init : α) :
    ∀ (l : List β), (∀ b ∈ l, f init b = init) → l.foldl f init = init
  | [], _ => rfl
  | a :: t, h => by
    rw [List.foldl_cons, h a (List.mem_cons_self _ _)]
    exact foldl_fixed f init t (fun b hb => h b (List.mem_cons_of_mem _ hb))

/-- C8 (amended): changing a link cost updates the link-cost table at that
neighbor; when the neighbor is absent from the distance vector an entry
(neighbor, inf) is first inserted; then exactly when the new cost is
strictly lower than the (possibly just-inserted) entry's cost, the entry
becomes (neighbor, cost) and the counter is forced to 2; otherwise that
entry and the counter keep their values.  All other distance-vector
entries, all other link costs, all other routers and all queues are left
untouched. -/
theorem C8_change_cost (net : Network) (src dst : String) (c : Int) (r : Router)
    (hr : lookupD net.routers src = some r) :
    ∃ net' r', change_cost net src dst c = some net' ∧
      lookupD net'.routers src = some r' ∧
      (∀ b, b ≠ src → lookupD net'.routers b = lookupD net.routers b) ∧
      net'.queues = net.queues ∧
      r'.addr = r.addr ∧ r'.outs = r.outs ∧
      lookupD r'.costs dst = some c ∧
      (∀ d, d ≠ dst → lookupD r'.costs d = lookupD r.costs d) ∧
      (∀ d, d ≠ dst → lookupD r'.dv d = lookupD r.dv d) ∧
      (c < ((lookupD r.dv dst).getD (dst, inf)).2 →
        lookupD r'.dv dst = some (dst, c) ∧ r'.converged = 2) ∧
      (¬ c < ((lookupD r.dv dst).getD (dst, inf)).2 →
        lookupD r'.dv dst = some ((lookupD r.dv dst).getD (dst, inf)) ∧
        r'.converged = r.converged) := by
  unfold change_cost
  rw [hr]
  dsimp only
  by_cases hpre : containsKey r.dv dst
  · rw [if_pos hpre]
    obtain ⟨e, he⟩ : ∃ e, lookupD r.dv dst = some e := by
      unfold containsKey at hpre
      cases h : lookupD r.dv dst with
      | none => rw [h] at hpre; simp at hpre
      | some w => exact ⟨w, rfl⟩
    rw [he]
    dsimp only
    by_cases hc : c < e.2
    · rw [if_pos hc]
      refine ⟨_, _, rfl, lookupD_setD_self _ _ _,
        fun b hb => lookupD_setD_ne _ _ _ _ hb, rfl, rfl, rfl,
        lookupD_setD_self _ _ _,
        fun d hd => lookupD_setD_ne _ _ _ _ hd,
        fun d hd => lookupD_setD_ne _ _ _ _ hd,
        fun _ => ⟨lookupD_setD_self _ _ _, rfl⟩,
        fun hnc => absurd hc hnc⟩
    · rw [if_neg hc]
      refine ⟨_, _, rfl, lookupD_setD_self _ _ _,
        fun b hb => lookupD_setD_ne _ _ _ _ hb, rfl, rfl, rfl,
        lookupD_setD_self _ _ _,
        fun d hd => lookupD_setD_ne _ _ _ _ hd,
        fun d _ => rfl,
        fun hcc => absurd hcc hc,
        fun _ => ⟨he, rfl⟩⟩
  · rw [if_neg hpre]
    have hins : lookupD (setD r.dv dst (dst, inf)) dst = some (dst, inf) :=
      lookupD_setD_self _ _ _
    have hnone : lookupD r.dv dst = none := by
      unfold containsKey at hpre
      cases h : lookupD r.dv dst with
      | none => rfl
      | some w => rw [h] at hpre; simp at hpre
    rw [hnone]
    dsimp only
    rw [hins]
    dsimp only
    by_cases hc : c < inf
    · rw [if_pos hc]
      refine ⟨_, _, rfl, lookupD_setD_self _ _ _,
        fun b hb => lookupD_setD_ne _ _ _ _ hb, rfl, rfl, rfl,
        lookupD_setD_self _ _ _,
        fun d hd => lookupD_setD_ne _ _ _ _ hd,
        fun d hd => by
          rw [lookupD_setD_ne _ _ _ _ hd, lookupD_setD_ne _ _ _ _ hd],
        fun _ => ⟨lookupD_setD_self _ _ _, rfl⟩,
        fun hnc => absurd hc hnc⟩
    · rw [if_neg hc]
      refine ⟨_, _, rfl, lookupD_setD_self _ _ _,
        fun b hb => lookupD_setD_ne _ _ _ _ hb, rfl, rfl, rfl,
        lookupD_setD_self _ _ _,
        fun d hd => lookupD_setD_ne _ _ _ _ hd,
        fun d hd => lookupD_setD_ne _ _ _ _ hd,
        fun hcc => absurd hcc hc,
        fun _ => ⟨hins, rfl⟩⟩

theorem C8_witness :
    ∃ net' r', change_cost (build [("A", "B", 1), ("B", "A", 1)]) "A" "B" 0 = some net' ∧
      lookupD net'.routers "A" = some r' ∧
      (∀ b, b ≠ "A" → lookupD net'.routers b =
        lookupD (build [("A", "B", 1), ("B", "A", 1)]).routers b) ∧
      net'.queues = (build [("A", "B", 1), ("B", "A", 1)]).queues ∧
      r'.addr = (mkRouter (buildCosts [("A", "B", 1), ("B", "A", 1)]) "A").addr ∧
      r'.outs = (mkRouter (buildCosts [("A", "B", 1), ("B", "A", 1)]) "A").outs ∧
      lookupD r'.costs "B" = some 0 ∧
      (∀ d, d ≠ "B" → lookupD r'.costs d =
        lookupD (mkRouter (buildCosts [("A", "B", 1), ("B", "A", 1)]) "A").costs d) ∧
      (∀ d, d ≠ "B" → lookupD r'.dv d =
        lookupD (mkRouter (buildCosts [("A", "B", 1), ("B", "A", 1)]) "A").dv d) ∧
      ((0 : Int) < ((lookupD (mkRouter (buildCosts [("A", "B", 1), ("B", "A", 1)]) "A").dv
          "B").getD ("B", inf)).2 →
        lookupD r'.dv "B" = some ("B", 0) ∧ r'.converged = 2) ∧
      (¬ (0 : Int) < ((lookupD (mkRouter (buildCosts [("A", "B", 1), ("B", "A", 1)]) "A").dv
          "B").getD ("B", inf)).2 →
        lookupD r'.dv "B" =
          some ((lookupD (mkRouter (buildCosts [("A", "B", 1), ("B", "A", 1)]) "A").dv
            "B").getD ("B", inf)) ∧
        r'.converged = (mkRouter (buildCosts [("A", "B", 1), ("B", "A", 1)]) "A").converged) :=
  C8_change_cost (build [("A", "B", 1), ("B", "A", 1)]) "A" "B" 0
    (mkRouter (buildCosts [("A", "B", 1), ("B", "A", 1)]) "A") rfl

/-- C8 counterexample: changing A's link cost to a *new* neighbor C with a
cost (20) that is not lower than anything still changes A's distance
vector: an entry (C, inf) is inserted, refuting "otherwise ... only the
link-cost table changes". -/
theorem C8_counterexample :
    ((change_cost (build [("A", "B", 1), ("B", "A", 1)]) "A" "C" 20).bind
        (fun n => lookupD n.routers "A")).map (fun r => lookupD r.dv "C") =
      some (some ("C", 16)) ∧
    (lookupD (build [("A", "B", 1), ("B", "A", 1)]).routers "A").map
        (fun r => lookupD r.dv "C") = some none ∧
    ¬ (20 : Int) < 16 :=
  ⟨rfl, rfl, by decide⟩

end DVR

namespace DVR

theorem containsKey_of_mem_keys {κ β : Type} [DecidableEq κ] :
    ∀ (l : List (κ × β)) (k : κ), k ∈ l.map Prod.fst → containsKey l k = true
  | [], k, h => by simp at h
  | (a, b) :: t, k, h => by
    by_cases ha : a = k
    · unfold containsKey lookupD
      rw [if_pos ha]; rfl
    · have ht : k ∈ t.map Prod.fst := by
        simp only [List.map_cons, List.mem_cons] at h
        rcases h with he | ht2
        · exact absurd ha (by rw [he] at ha ⊢; exact fun hx => hx rfl)
        · exact ht2
      unfold containsKey lookupD
      rw [if_neg ha]
      exact containsKey_of_mem_keys t k ht

theorem send_one_stable (net : Network) (a : String)
    (hs : net.is_stable = true) : send_one net a = net := by
  unfold send_one
  cases hr : lookupD net.routers a with
  | none => rfl
  | some r =>
    dsimp only
    have hmem : (a, r) ∈ net.routers := lookupD_mem net.routers a r hr
    have h0 : r.converged = 0 := by
      have := (List.all_eq_true.mp hs) (a, r) hmem
      simpa using this
    rw [if_pos h0]

theorem send_dv_stable (net : Network) (hs : net.is_stable = true) :
    net.send_dv = net := by
  unfold Network.send_dv
  exact foldl_fixed _ net _ (fun b _ => send_one_stable net b hs)

theorem route_one_empty (net : Network) (a : String) (fuel : Nat)
    (hq : lookupD net.queues a = some []) :
    route_one a fuel net = some (net, []) := by
  cases fuel with
  | zero => unfold route_one; rw [hq]
  | succ n => unfold route_one; rw [hq]

/-- C2 (amended): in a stable state with all channels empty (the states a
step-driven run can actually be stable in), one more step is a no-op: the
network, every distance-vector entry included, is returned unchanged. -/
theorem C2_stable_step (net : Network)
    (hs : net.is_stable = true) (hq : net.queuesEmpty = true)
    (ha : net.routers.all (fun ar => containsKey net.queues ar.1) = true) :
    net.step = some net := by
  have hsend : net.send_dv = net := send_dv_stable net hs
  have hroute : Network.route net = some (net, []) := by
    unfold Network.route
    refine foldl_fixed _ (some (net, [])) _ (fun b hb => ?_)
    have hqk : containsKey net.queues b = true := by
      obtain ⟨pr, hpr, hprb⟩ := List.mem_map.mp hb
      have := (List.all_eq_true.mp ha) pr hpr
      rw [← hprb]
      simpa using this
    obtain ⟨q, hql⟩ : ∃ q, lookupD net.queues b = some q := by
      unfold containsKey at hqk
      cases h : lookupD net.queues b with
      | none => rw [h] at hqk; simp at hqk
      | some w => exact ⟨w, rfl⟩
    have hqe : q = [] := by
      have hmem : (b, q) ∈ net.queues := lookupD_mem net.queues b q hql
      have := (List.all_eq_true.mp hq) (b, q) hmem
      simpa using this
    subst hqe
    dsimp only
    rw [route_one_empty net b (((lookupD net.queues b).getD []).length) hql]
    rfl
  unfold Network.step
  rw [hsend, hroute]

end DVR

namespace DVR

theorem C2_witness :
    Network.step
      { routers := [("A", ⟨"A", [("B", 1)], ["B"], [("B", ("B", 1))], 0⟩),
                    ("B", ⟨"B", [("A", 1)], ["A"], [("A", ("A", 1))], 0⟩)],
        queues := [("A", []), ("B", [])] } =
    some { routers := [("A", ⟨"A", [("B", 1)], ["B"], [("B", ("B", 1))], 0⟩),
                       ("B", ⟨"B", [("A", 1)], ["A"], [("A", ("A", 1))], 0⟩)],
           queues := [("A", []), ("B", [])] } :=
  C2_stable_step
    { routers := [("A", ⟨"A", [("B", 1)], ["B"], [("B", ("B", 1))], 0⟩),
                  ("B", ⟨"B", [("A", 1)], ["A"], [("A", ("A", 1))], 0⟩)],
      queues := [("A", []), ("B", [])] } rfl rfl (by decide)

/-- C2 counterexample: after reset, sendAll, sendAll (a driver sequence
the claim explicitly includes), is_stable returns true while
distance-vector packets are still queued; one more step then changes A's
distance vector (it gains the entry ("A", 0)) and makes the network
unstable again, refuting the claim over such reachable states. -/
theorem C2_counterexample :
    (Network.send_dv (Network.send_dv (build [("A", "B", 1), ("B", "A", 1)]))).is_stable
      = true ∧
    (lookupD (Network.send_dv
        (Network.send_dv (build [("A", "B", 1), ("B", "A", 1)]))).routers "A").map
      (fun r => lookupD r.dv "A") = some none ∧
    ((Network.step (Network.send_dv
          (Network.send_dv (build [("A", "B", 1), ("B", "A", 1)])))).bind
        (fun m => lookupD m.routers "A")).map (fun r => lookupD r.dv "A") =
      some (some ("A", 0)) ∧
    (Network.step (Network.send_dv
        (Network.send_dv (build [("A", "B", 1), ("B", "A", 1)])))).map
      Network.is_stable = some false :=
  ⟨rfl, rfl, rfl, rfl⟩

/-- C7: evaluating the code on the topology A->B (cost 1), C->A (cost 2):
at the moment send_dv runs, A's distance vector is just B -> (B, 1); yet
after the very same step, receiver B's distance vector contains an entry
for C, which A only learned *after* enqueueing its packet (from C's packet,
during the same routeAll sweep).  Applying the send-time vector instead
(the claim's snapshot semantics) yields no entry for C at B.  The packet
aliases the sender's live table, so same-round changes are observed. -/
theorem C7_alias_observed :
    (lookupD ((build [("A", "B", 1), ("C", "A", 2)]).send_dv).routers "A").map Router.dv =
      some [("B", ("B", 1))] ∧
    ((Network.step (build [("A", "B", 1), ("C", "A", 2)])).bind
        (fun m => lookupD m.routers "B")).map (fun r => lookupD r.dv "C") =
      some (some ("C", 16)) ∧
    ((lookupD ((build [("A", "B", 1), ("C", "A", 2)]).send_dv).routers "B").bind
        (fun b => b.update_dv "A" [("B", ("B", 1))])).map (fun r => lookupD r.dv "C") =
      some none :=
  ⟨rfl, rfl, rfl⟩

end DVR

namespace DVR

/-! ### Structural lemmas about the three passes of update_dv -/

theorem setD_length_present {κ β : Type} [DecidableEq κ] (l : List (κ × β)) (k : κ) (v : β)
    (h : containsKey l k = true) : (setD l k v).length = l.length := by
  unfold setD; rw [if_pos h]; exact List.length_map l _

theorem setD_length_absent {κ β : Type} [DecidableEq κ] (l : List (κ × β)) (k : κ) (v : β)
    (h : containsKey l k = false) : (setD l k v).length = l.length + 1 := by
  unfold setD; rw [if_neg (by rw [h]; exact Bool.false_ne_true)]
  exact List.length_append l _

theorem clamp_length (s : String) (dv : DV) : (clamp_pass s dv).length = dv.length :=
  List.length_map dv _

theorem clamp_cost_le (s : String) (dv : DV) (k nh : String) (c : Int)
    (h : lookupD (clamp_pass s dv) k = some (nh, c)) : c ≤ inf := by
  rw [lookupD_clamp] at h
  cases he : lookupD dv k with
  | none => rw [he] at h; simp at h
  | some e =>
    rw [he] at h
    simp only [Option.map] at h
    rw [clamp_entry] at h
    by_cases h1 : k = s
    · rw [if_pos h1] at h
      simp only [Option.some_inj, Prod.mk.injEq] at h
      rw [← h.2]; decide
    · rw [if_neg h1] at h
      by_cases h2 : e.2 > inf
      · rw [if_pos h2] at h
        simp only [Option.some_inj, Prod.mk.injEq] at h
        rw [← h.2]
      · rw [if_neg h2] at h
        simp only [Option.some_inj] at h
        rw [h] at h2
        exact le_of_not_lt h2

theorem clamp_entry_cost_le (s k : String) (e : String × Int) (h : k ≠ s) :
    (clamp_entry s k e).2 ≤ e.2 := by
  rw [clamp_entry, if_neg h]
  by_cases h2 : e.2 > inf
  · rw [if_pos h2]; exact le_of_lt h2
  · rw [if_neg h2]

theorem learn_cv_or (src : String) :
    ∀ (t : DV) (dv : DV) (cv : Nat) (dv' : DV) (cv' : Nat),
      learn_pass src dv cv t = some (dv', cv') → cv' = cv ∨ cv' = 2
  | [], dv, cv, dv', cv', h => by
    unfold learn_pass at h; simp at h; exact Or.inl h.2.symm
  | (dst, (nh, c)) :: rest, dv, cv, dv', cv', h => by
    unfold learn_pass at h
    by_cases hd : containsKey dv dst
    · rw [if_pos hd] at h
      exact learn_cv_or src rest dv cv dv' cv' h
    · rw [if_neg hd] at h
      cases hs : lookupD dv src with
      | none => rw [hs] at h; simp at h
      | some e =>
        obtain ⟨a, cs⟩ := e
        rw [hs] at h
        rcases learn_cv_or src rest _ 2 dv' cv' h with h2 | h2
        · exact Or.inr h2
        · exact Or.inr h2

theorem relax_cv_or (self src : String) :
    ∀ (t : DV) (dv : DV) (cv : Nat) (dv' : DV) (cv' : Nat),
      relax_pass self src dv cv t = some (dv', cv') → cv' = cv ∨ cv' = 2
  | [], dv, cv, dv', cv', h => by
    unfold relax_pass at h; simp at h; exact Or.inl h.2.symm
  | (dst, (nh, c)) :: rest, dv, cv, dv', cv', h => by
    unfold relax_pass at h
    by_cases hself : dst = self
    · rw [if_pos hself] at h
      exact relax_cv_or self src rest dv cv dv' cv' h
    · rw [if_neg hself] at h
      cases h1 : lookupD dv src with
      | none => rw [h1] at h; simp at h
      | some e1 =>
        obtain ⟨a1, cs⟩ := e1
        rw [h1] at h
        cases h2 : lookupD dv dst with
        | none => rw [h2] at h; simp at h
        | some e2 =>
          obtain ⟨a2, cd⟩ := e2
          rw [h2] at h
          dsimp only at h
          by_cases hlt : cs + c < cd
          · rw [if_pos hlt] at h
            rcases relax_cv_or self src rest _ 2 dv' cv' h with h3 | h3
            · exact Or.inr h3
            · exact Or.inr h3
          · rw [if_neg hlt] at h
            exact relax_cv_or self src rest dv cv dv' cv' h

theorem learn_length_mono (src : String) :
    ∀ (t : DV) (dv : DV) (cv : Nat) (dv' : DV) (cv' : Nat),
      learn_pass src dv cv t = some (dv', cv') → dv.length ≤ dv'.length
  | [], dv, cv, dv', cv', h => by
    unfold learn_pass at h; simp at h; rw [h.1]
  | (dst, (nh, c)) :: rest, dv, cv, dv', cv', h => by
    unfold learn_pass at h
    by_cases hd : containsKey dv dst
    · rw [if_pos hd] at h
      exact learn_length_mono src rest dv cv dv' cv' h
    · rw [if_neg hd] at h
      cases hs : lookupD dv src with
      | none => rw [hs] at h; simp at h
      | some e =>
        obtain ⟨a, cs⟩ := e
        rw [hs] at h
        have h1 := learn_length_mono src rest _ 2 dv' cv' h
        rw [setD_length_absent dv dst _ (by simpa using hd)] at h1
        omega

theorem learn_id_of_length (src : String) :
    ∀ (t : DV) (dv : DV) (cv : Nat) (dv' : DV) (cv' : Nat),
      learn_pass src dv cv t = some (dv', cv') → dv'.length = dv.length →
      dv' = dv ∧ cv' = cv
  | [], dv, cv, dv', cv', h, _ => by
    unfold learn_pass at h; simp at h; exact ⟨h.1.symm, h.2.symm⟩
  | (dst, (nh, c)) :: rest, dv, cv, dv', cv', h, hlen => by
    unfold learn_pass at h
    by_cases hd : containsKey dv dst
    · rw [if_pos hd] at h
      exact learn_id_of_length src rest dv cv dv' cv' h hlen
    · rw [if_neg hd] at h
      cases hs : lookupD dv src with
      | none => rw [hs] at h; simp at h
      | some e =>
        obtain ⟨a, cs⟩ := e
        rw [hs] at h
        have h1 := learn_length_mono src rest _ 2 dv' cv' h
        rw [setD_length_absent dv dst _ (by simpa using hd)] at h1
        omega

theorem relax_length (self src : String) :
    ∀ (t : DV) (dv : DV) (cv : Nat) (dv' : DV) (cv' : Nat),
      relax_pass self src dv cv t = some (dv', cv') → dv'.length = dv.length
  | [], dv, cv, dv', cv', h => by
    unfold relax_pass at h; simp at h; rw [h.1]
  | (dst, (nh, c)) :: rest, dv, cv, dv', cv', h => by
    unfold relax_pass at h
    by_cases hself : dst = self
    · rw [if_pos hself] at h
      exact relax_length self src rest dv cv dv' cv' h
    · rw [if_neg hself] at h
      cases h1 : lookupD dv src with
      | none => rw [h1] at h; simp at h
      | some e1 =>
        obtain ⟨a1, cs⟩ := e1
        rw [h1] at h
        cases h2 : lookupD dv dst with
        | none => rw [h2] at h; simp at h
        | some e2 =>
          obtain ⟨a2, cd⟩ := e2
          rw [h2] at h
          dsimp only at h
          by_cases hlt : cs + c < cd
          · rw [if_pos hlt] at h
            have h3 := relax_length self src rest _ 2 dv' cv' h
            rw [setD_length_present dv dst _ (by unfold containsKey; rw [h2]; rfl)] at h3
            exact h3
          · rw [if_neg hlt] at h
            exact relax_length self src rest dv cv dv' cv' h

end DVR

namespace DVR

theorem relax_contains (self src : String) :
    ∀ (t : DV) (dv : DV) (cv : Nat) (dv' : DV) (cv' : Nat),
      relax_pass self src dv cv t = some (dv', cv') →
      ∀ k, containsKey dv k = true → containsKey dv' k = true
  | [], dv, cv, dv', cv', h, k, hk => by
    unfold relax_pass at h; simp at h; rw [← h.1]; exact hk
  | (dst, (nh, c)) :: rest, dv, cv, dv', cv', h, k, hk => by
    unfold relax_pass at h
    by_cases hself : dst = self
    · rw [if_pos hself] at h
      exact relax_contains self src rest dv cv dv' cv' h k hk
    · rw [if_neg hself] at h
      cases h1 : lookupD dv src with
      | none => rw [h1] at h; simp at h
      | some e1 =>
        obtain ⟨a1, cs⟩ := e1
        rw [h1] at h
        cases h2 : lookupD dv dst with
        | none => rw [h2] at h; simp at h
        | some e2 =>
          obtain ⟨a2, cd⟩ := e2
          rw [h2] at h
          dsimp only at h
          by_cases hlt : cs + c < cd
          · rw [if_pos hlt] at h
            exact relax_contains self src rest _ 2 dv' cv' h k
              (containsKey_setD_of dv dst k _ hk)
          · rw [if_neg hlt] at h
            exact relax_contains self src rest dv cv dv' cv' h k hk

theorem relax_preserves_nonkeys (self src : String) :
    ∀ (t : DV) (dv : DV) (cv : Nat) (dv' : DV) (cv' : Nat),
      relax_pass self src dv cv t = some (dv', cv') →
      ∀ k, k ∉ t.map Prod.fst → lookupD dv' k = lookupD dv k
  | [], dv, cv, dv', cv', h, k, _ => by
    unfold relax_pass at h; simp at h; rw [← h.1]
  | (dst, (nh, c)) :: rest, dv, cv, dv', cv', h, k, hk => by
    have hkd : k ≠ dst := by
      intro he; exact hk (by rw [he]; exact List.mem_cons_self _ _)
    have hkr : k ∉ rest.map Prod.fst := by
      intro he; exact hk (List.mem_cons_of_mem _ he)
    unfold relax_pass at h
    by_cases hself : dst = self
    · rw [if_pos hself] at h
      exact relax_preserves_nonkeys self src rest dv cv dv' cv' h k hkr
    · rw [if_neg hself] at h
      cases h1 : lookupD dv src with
      | none => rw [h1] at h; simp at h
      | some e1 =>
        obtain ⟨a1, cs⟩ := e1
        rw [h1] at h
        cases h2 : lookupD dv dst with
        | none => rw [h2] at h; simp at h
        | some e2 =>
          obtain ⟨a2, cd⟩ := e2
          rw [h2] at h
          dsimp only at h
          by_cases hlt : cs + c < cd
          · rw [if_pos hlt] at h
            rw [relax_preserves_nonkeys self src rest _ 2 dv' cv' h k hkr]
            exact lookupD_setD_ne dv dst k _ hkd
          · rw [if_neg hlt] at h
            exact relax_preserves_nonkeys self src rest dv cv dv' cv' h k hkr

theorem relax_cost_mono (self src : String) :
    ∀ (t : DV) (dv : DV) (cv : Nat) (dv' : DV) (cv' : Nat),
      relax_pass self src dv cv t = some (dv', cv') →
      ∀ k nh1 c1, lookupD dv' k = some (nh1, c1) →
        ∃ nh0 c0, lookupD dv k = some (nh0, c0) ∧ c1 ≤ c0
  | [], dv, cv, dv', cv', h, k, nh1, c1, hk => by
    unfold relax_pass at h; simp at h
    rw [h.1]
    exact ⟨nh1, c1, hk, le_refl c1⟩
  | (dst, (nh, c)) :: rest, dv, cv, dv', cv', h, k, nh1, c1, hk => by
    unfold relax_pass at h
    by_cases hself : dst = self
    · rw [if_pos hself] at h
      exact relax_cost_mono self src rest dv cv dv' cv' h k nh1 c1 hk
    · rw [if_neg hself] at h
      cases h1 : lookupD dv src with
      | none => rw [h1] at h; simp at h
      | some e1 =>
        obtain ⟨a1, cs⟩ := e1
        rw [h1] at h
        cases h2 : lookupD dv dst with
        | none => rw [h2] at h; simp at h
        | some e2 =>
          obtain ⟨a2, cd⟩ := e2
          rw [h2] at h
          dsimp only at h
          by_cases hlt : cs + c < cd
          · rw [if_pos hlt] at h
            obtain ⟨nh0, c0, hk0, hle⟩ :=
              relax_cost_mono self src rest _ 2 dv' cv' h k nh1 c1 hk
            by_cases hkd : k = dst
            · subst hkd
              rw [lookupD_setD_self] at hk0
              simp only [Option.some_inj, Prod.mk.injEq] at hk0
              exact ⟨a2, cd, h2, le_of_lt (lt_of_le_of_lt (hk0.2 ▸ hle) hlt)⟩
            · rw [lookupD_setD_ne dv dst k _ hkd] at hk0
              exact ⟨nh0, c0, hk0, hle⟩
          · rw [if_neg hlt] at h
            exact relax_cost_mono self src rest dv cv dv' cv' h k nh1 c1 hk

theorem relax_strict (self src : String) :
    ∀ (t : DV) (dv : DV) (cv : Nat) (dv' : DV) (cv' : Nat),
      relax_pass self src dv cv t = some (dv', cv') →
      cv' = cv ∨ ∃ k nh0 c0 nh1 c1, k ≠ self ∧ lookupD dv k = some (nh0, c0) ∧
        lookupD dv' k = some (nh1, c1) ∧ c1 < c0
  | [], dv, cv, dv', cv', h => by
    unfold relax_pass at h; simp at h; exact Or.inl h.2.symm
  | (dst, (nh, c)) :: rest, dv, cv, dv', cv', h => by
    unfold relax_pass at h
    by_cases hself : dst = self
    · rw [if_pos hself] at h
      exact relax_strict self src rest dv cv dv' cv' h
    · rw [if_neg hself] at h
      cases h1 : lookupD dv src with
      | none => rw [h1] at h; simp at h
      | some e1 =>
        obtain ⟨a1, cs⟩ := e1
        rw [h1] at h
        cases h2 : lookupD dv dst with
        | none => rw [h2] at h; simp at h
        | some e2 =>
          obtain ⟨a2, cd⟩ := e2
          rw [h2] at h
          dsimp only at h
          by_cases hlt : cs + c < cd
          · rw [if_pos hlt] at h
            refine Or.inr ?_
            have hc2 : containsKey dv' dst = true :=
              relax_contains self src rest _ 2 dv' cv' h dst
                (containsKey_setD_self dv dst _)
            obtain ⟨e', he'⟩ : ∃ e', lookupD dv' dst = some e' := by
              unfold containsKey at hc2
              cases hx : lookupD dv' dst with
              | none => rw [hx] at hc2; simp at hc2
              | some w => exact ⟨w, rfl⟩
            obtain ⟨nh1, c1⟩ := e'
            obtain ⟨nh0, c0, hk0, hle⟩ :=
              relax_cost_mono self src rest _ 2 dv' cv' h dst nh1 c1 he'
            rw [lookupD_setD_self] at hk0
            simp only [Option.some_inj, Prod.mk.injEq] at hk0
            exact ⟨dst, a2, cd, nh1, c1, hself, h2, he',
              lt_of_le_of_lt (hk0.2 ▸ hle) hlt⟩
          · rw [if_neg hlt] at h
            exact relax_strict self src rest dv cv dv' cv' h

end DVR

namespace DVR

theorem relax_lookup_char (self src nhs : String) (cs : Int) :
    ∀ (t : DV) (dv : DV) (cv : Nat) (dv' : DV) (cv' : Nat),
      relax_pass self src dv cv t = some (dv', cv') →
      (t.map Prod.fst).Nodup →
      lookupD dv src = some (nhs, cs) →
      (∀ p ∈ t, p.1 = src → 0 ≤ p.2.2) →
      ∀ dst nh c, (dst, (nh, c)) ∈ t → dst ≠ self →
        ∀ nhd cd, lookupD dv dst = some (nhd, cd) →
          lookupD dv' dst = some (if cs + c < cd then (src, cs + c) else (nhd, cd)) ∧
          (cs + c < cd → cv' = 2)
  | [], dv, cv, dv', cv', h, _, _, _, dst, nh, c, hmem, _, _, _, _ =>
    absurd hmem (List.not_mem_nil _)
  | (e, (enh, ec)) :: rest, dv, cv, dv', cv', h, hnd, hsrc, hsnn,
      dst, nh, c, hmem, hdst, nhd, cd, hdd => by
    have hndr : (rest.map Prod.fst).Nodup := by
      simp only [List.map_cons, List.nodup_cons] at hnd
      exact hnd.2
    have henr : e ∉ rest.map Prod.fst := by
      simp only [List.map_cons, List.nodup_cons] at hnd
      exact hnd.1
    unfold relax_pass at h
    by_cases hself : e = self
    · rw [if_pos hself] at h
      rcases List.mem_cons.mp hmem with hhd | htl
      · exfalso
        apply hdst
        rw [(Prod.mk.injEq _ _ _ _).mp hhd |>.1, hself]
      · exact relax_lookup_char self src nhs cs rest dv cv dv' cv' h hndr hsrc
          (fun p hp => hsnn p (List.mem_cons_of_mem _ hp)) dst nh c htl hdst nhd cd hdd
    · rw [if_neg hself] at h
      rw [hsrc] at h
      cases h2 : lookupD dv e with
      | none => rw [h2] at h; simp at h
      | some e2 =>
        obtain ⟨enhd, ecd⟩ := e2
        rw [h2] at h
        dsimp only at h
        by_cases hlt : cs + ec < ecd
        · rw [if_pos hlt] at h
          have hesrc : e ≠ src := by
            intro heq
            have h0 : (0 : Int) ≤ ec :=
              hsnn (e, (enh, ec)) (List.mem_cons_self _ _) heq
            rw [heq, hsrc] at h2
            simp only [Option.some_inj, Prod.mk.injEq] at h2
            omega
          have hsrc2 : lookupD (setD dv e (src, cs + ec)) src = some (nhs, cs) := by
            rw [lookupD_setD_ne dv e src _ (Ne.symm hesrc)]
            exact hsrc
          have hcv2 : cv' = 2 := by
            rcases relax_cv_or self src rest _ 2 dv' cv' h with hx | hx <;> exact hx
          rcases List.mem_cons.mp hmem with hhd | htl
          · have hde : dst = e := ((Prod.mk.injEq _ _ _ _).mp hhd).1
            have hv : (nh, c) = (enh, ec) := ((Prod.mk.injEq _ _ _ _).mp hhd).2
            have hcc : c = ec := ((Prod.mk.injEq _ _ _ _).mp hv).2
            subst hde
            rw [hdd] at h2
            simp only [Option.some_inj, Prod.mk.injEq] at h2
            have hfire : cs + c < cd := by rw [hcc, h2.2]; exact hlt
            refine ⟨?_, fun _ => hcv2⟩
            rw [if_pos hfire]
            rw [relax_preserves_nonkeys self src rest _ 2 dv' cv' h dst henr]
            rw [lookupD_setD_self, hcc]
          · have hdste : dst ≠ e := by
              intro heq
              apply henr
              rw [← heq]
              exact List.mem_map.mpr ⟨(dst, (nh, c)), htl, rfl⟩
            have hdd2 : lookupD (setD dv e (src, cs + ec)) dst = some (nhd, cd) := by
              rw [lookupD_setD_ne dv e dst _ hdste]
              exact hdd
            exact relax_lookup_char self src nhs cs rest _ 2 dv' cv' h hndr hsrc2
              (fun p hp => hsnn p (List.mem_cons_of_mem _ hp)) dst nh c htl hdst nhd cd hdd2
        · rw [if_neg hlt] at h
          rcases List.mem_cons.mp hmem with hhd | htl
          · have hde : dst = e := ((Prod.mk.injEq _ _ _ _).mp hhd).1
            have hv : (nh, c) = (enh, ec) := ((Prod.mk.injEq _ _ _ _).mp hhd).2
            have hcc : c = ec := ((Prod.mk.injEq _ _ _ _).mp hv).2
            subst hde
            rw [hdd] at h2
            simp only [Option.some_inj, Prod.mk.injEq] at h2
            have hnfire : ¬ cs + c < cd := by rw [hcc, h2.2]; exact hlt
            refine ⟨?_, fun hcc2 => absurd hcc2 hnfire⟩
            rw [if_neg hnfire]
            rw [relax_preserves_nonkeys self src rest dv cv dv' cv' h dst henr]
            exact hdd
          · exact relax_lookup_char self src nhs cs rest dv cv dv' cv' h hndr hsrc
              (fun p hp => hsnn p (List.mem_cons_of_mem _ hp)) dst nh c htl hdst nhd cd hdd

end DVR


namespace DVR

theorem clamp_entry_id (s k : String) (e : String × Int) (h1 : k ≠ s) (h2 : ¬ e.2 > inf) :
    clamp_entry s k e = e := by
  rw [clamp_entry, if_neg h1, if_neg h2]

/-- C4: the Bellman-Ford relaxation step.  Given a successful update_dv
call on a table with duplicate-free keys and non-negative advertised
costs, and writing dv2 for the state the relaxation loop starts from (the
clamp of the post-learn state dv1): for every advertised destination other
than the router's own address, the final entry is (src, dv2[src].cost +
advertised cost) exactly when that candidate is strictly below
dv2[dst].cost (and then the counter is 2), and is the dv2 entry unchanged
otherwise.  Moreover, if the call changes no entry at all (the distance
vector is returned unchanged), the convergence counter is left
untouched. -/
theorem C4_bellman_relax (r : Router) (src : String) (table : DV) (r' : Router)
    (dv1 : DV) (cv1 : Nat)
    (hu : r.update_dv src table = some r')
    (hal : r.after_learn src table = some (dv1, cv1))
    (hnd : (table.map Prod.fst).Nodup)
    (hnn : ∀ p ∈ table, 0 ≤ p.2.2) :
    (∀ dst nh c, lookupD table dst = some (nh, c) → dst ≠ r.addr →
      ∃ nhs cs nhd cd,
        lookupD (clamp_pass r.addr dv1) src = some (nhs, cs) ∧
        lookupD (clamp_pass r.addr dv1) dst = some (nhd, cd) ∧
        lookupD r'.dv dst = some (if cs + c < cd then (src, cs + c) else (nhd, cd)) ∧
        (cs + c < cd → r'.converged = 2)) ∧
    (r'.dv = r.dv → r'.converged = r.converged) := by
  obtain ⟨dv1x, cv1x, dv3, cv3, halx, hrelax, hr'⟩ := update_dv_shape r src table r' hu
  rw [hal] at halx
  simp only [Option.some_inj, Prod.mk.injEq] at halx
  obtain ⟨he1, he2⟩ := halx
  subst he1; subst he2
  have hal2 : learn_pass src (ensure_src r.dv src) r.converged table = some (dv1, cv1) := hal
  constructor
  · intro dst nh c hlk hdst
    have hmem : (dst, (nh, c)) ∈ table := lookupD_mem table dst (nh, c) hlk
    have hsrc1 : containsKey dv1 src = true :=
      learn_pass_contains src table _ _ _ _ hal2 src (containsKey_ensure_self r.dv src)
    have hdst1 : containsKey dv1 dst = true :=
      learn_pass_contains_table src table _ _ _ _ hal2 (dst, (nh, c)) hmem
    obtain ⟨es, hes⟩ : ∃ e, lookupD dv1 src = some e := by
      unfold containsKey at hsrc1
      cases hx : lookupD dv1 src with
      | none => rw [hx] at hsrc1; simp at hsrc1
      | some w => exact ⟨w, rfl⟩
    obtain ⟨ed, hed⟩ : ∃ e, lookupD dv1 dst = some e := by
      unfold containsKey at hdst1
      cases hx : lookupD dv1 dst with
      | none => rw [hx] at hdst1; simp at hdst1
      | some w => exact ⟨w, rfl⟩
    rcases hces : clamp_entry r.addr src es with ⟨nhs, cs⟩
    rcases hced : clamp_entry r.addr dst ed with ⟨nhd, cd⟩
    have hsrc2 : lookupD (clamp_pass r.addr dv1) src = some (nhs, cs) := by
      rw [lookupD_clamp, hes]
      dsimp only [Option.map]
      rw [hces]
    have hdd2 : lookupD (clamp_pass r.addr dv1) dst = some (nhd, cd) := by
      rw [lookupD_clamp, hed]
      dsimp only [Option.map]
      rw [hced]
    have hchar := relax_lookup_char r.addr src nhs cs table (clamp_pass r.addr dv1)
      cv1 dv3 cv3 hrelax hnd hsrc2 (fun p hp _ => hnn p hp) dst nh c hmem hdst nhd cd hdd2
    have hcdle : cd ≤ inf := clamp_cost_le r.addr dv1 dst nhd cd hdd2
    refine ⟨nhs, cs, nhd, cd, hsrc2, hdd2, ?_, fun hf => by rw [hr']; exact hchar.2 hf⟩
    rw [hr']
    dsimp only
    rw [lookupD_clamp, hchar.1]
    dsimp only [Option.map]
    congr 1
    by_cases hf : cs + c < cd
    · rw [if_pos hf]
      refine clamp_entry_id r.addr dst (src, cs + c) hdst ?_
      dsimp only
      exact not_lt.mpr (le_of_lt (lt_of_lt_of_le hf hcdle))
    · rw [if_neg hf]
      exact clamp_entry_id r.addr dst (nhd, cd) hdst (not_lt.mpr hcdle)
  · intro hdveq
    rw [hr']
    dsimp only
    have hA : (clamp_pass r.addr dv3).length = dv1.length := by
      rw [clamp_length, relax_length r.addr src table _ _ _ _ hrelax, clamp_length]
    have hB : clamp_pass r.addr dv3 = r.dv := by
      rw [← hdveq, hr']
    have hlenr : dv1.length = r.dv.length := by
      rw [← hA, hB]
    have hcsrc : containsKey r.dv src = true := by
      by_contra hc
      have hc' : containsKey r.dv src = false := by simpa using hc
      have hlen0 : (ensure_src r.dv src).length = r.dv.length + 1 := by
        unfold ensure_src
        rw [if_neg (by rw [hc']; exact Bool.false_ne_true)]
        exact setD_length_absent r.dv src _ hc'
      have hmono := learn_length_mono src table _ _ _ _ hal2
      omega
    have hdv0 : ensure_src r.dv src = r.dv := by
      unfold ensure_src; rw [if_pos hcsrc]
    rw [hdv0] at hal2
    obtain ⟨hdv1, hcv1⟩ :=
      learn_id_of_length src table r.dv r.converged dv1 cv1 hal2 (by rw [hlenr])
    subst hdv1
    rcases relax_strict r.addr src table _ _ _ _ hrelax with hcv | hstrict
    · rw [hcv, hcv1]
    · exfalso
      obtain ⟨k, nh0, c0, nh1, c1, hknself, hk2, hk3, hlt⟩ := hstrict
      obtain ⟨eo, heo⟩ : ∃ e, lookupD r.dv k = some e := by
        rw [lookupD_clamp] at hk2
        cases hx : lookupD r.dv k with
        | none => rw [hx] at hk2; simp at hk2
        | some w => exact ⟨w, rfl⟩
      have hk2' : clamp_entry r.addr k eo = (nh0, c0) := by
        rw [lookupD_clamp, heo] at hk2
        simpa using hk2
      have hc0le : c0 ≤ eo.2 := by
        have hle := clamp_entry_cost_le r.addr k eo hknself
        rw [hk2'] at hle
        exact hle
      have hfin : lookupD r'.dv k = some (clamp_entry r.addr k (nh1, c1)) := by
        rw [hr']
        dsimp only
        rw [lookupD_clamp, hk3]
        rfl
      have hc1le : (clamp_entry r.addr k (nh1, c1)).2 ≤ c1 :=
        clamp_entry_cost_le r.addr k (nh1, c1) hknself
      rw [hdveq, heo] at hfin
      have heq : eo = clamp_entry r.addr k (nh1, c1) := by simpa using hfin
      rw [← heq] at hc1le
      omega

theorem C4_witness :
    lookupD (⟨"A", [("B", 1)], ["B"], [("B", ("B", 1)), ("C", ("C", 6))], 2⟩ : Router).dv
      "C" = some ("C", 6) := by
  have h := C4_bellman_relax ⟨"A", [("B", 1)], ["B"], [("B", ("B", 1))], 2⟩ "B"
    [("C", ("C", 5))] ⟨"A", [("B", 1)], ["B"], [("B", ("B", 1)), ("C", ("C", 6))], 2⟩
    [("B", ("B", 1)), ("C", ("C", 6))] 2 rfl rfl (by decide) (by decide)
  obtain ⟨nhs, cs, nhd, cd, h1, h2, h3, _⟩ := h.1 "C" "C" 5 rfl (by decide)
  have e1 : some (nhs, cs) = some ("B", (1 : Int)) := h1.symm.trans rfl
  have e2 : some (nhd, cd) = some ("C", (6 : Int)) := h2.symm.trans rfl
  simp only [Option.some_inj, Prod.mk.injEq] at e1 e2
  obtain ⟨e1a, e1b⟩ := e1
  obtain ⟨e2a, e2b⟩ := e2
  subst e1a; subst e1b; subst e2a; subst e2b
  rw [if_neg (by decide)] at h3
  exact h3

end DVR

namespace DVR

/-! ### Potential lemmas for the passes of update_dv -/

theorem sum_map_eq_pointwise {ι : Type} (f g : ι → Nat) :
    ∀ (l : List ι), (∀ i ∈ l, f i ≤ g i) → (l.map f).sum = (l.map g).sum →
      ∀ i ∈ l, f i = g i
  | [], _, _, i, hi => absurd hi (List.not_mem_nil i)
  | a :: t, hle, heq, i, hi => by
    simp only [List.map_cons, List.sum_cons] at heq
    have h1 : f a ≤ g a := hle a (List.mem_cons_self _ _)
    have h2 : (t.map f).sum ≤ (t.map g).sum :=
      List.sum_le_sum (fun j hj => hle j (List.mem_cons_of_mem _ hj))
    have h3 : f a = g a := by omega
    have h4 : (t.map f).sum = (t.map g).sum := by omega
    rcases List.mem_cons.mp hi with hh | ht
    · rw [hh]; exact h3
    · exact sum_map_eq_pointwise f g t (fun j hj => hle j (List.mem_cons_of_mem _ hj)) h4 i ht

theorem sum_map_le_two {ι : Type} (f : ι → Nat) :
    ∀ (l : List ι), (∀ i ∈ l, f i ≤ 2) → (l.map f).sum ≤ 2 * l.length
  | [], _ => by simp
  | a :: t, h => by
    simp only [List.map_cons, List.sum_cons, List.length_cons]
    have h1 : f a ≤ 2 := h a (List.mem_cons_self _ _)
    have h2 := sum_map_le_two f t (fun j hj => h j (List.mem_cons_of_mem _ hj))
    omega

theorem phiDV_le_of_pointwise (As : List String) (dv dv' : DV)
    (h : ∀ d ∈ As, wEntry (lookupD dv' d) ≤ wEntry (lookupD dv d)) :
    phiDV As dv' ≤ phiDV As dv :=
  List.sum_le_sum h

theorem phiDV_lt_of_pointwise (As : List String) (dv dv' : DV)
    (h : ∀ d ∈ As, wEntry (lookupD dv' d) ≤ wEntry (lookupD dv d))
    (hs : ∃ d ∈ As, wEntry (lookupD dv' d) < wEntry (lookupD dv d)) :
    phiDV As dv' < phiDV As dv :=
  List.sum_lt_sum _ _ h hs

theorem mem_setD {κ β : Type} [DecidableEq κ] :
    ∀ (l : List (κ × β)) (k : κ) (v : β) (p : κ × β),
      p ∈ setD l k v → p = (k, v) ∨ p ∈ l := by
  intro l k v p hp
  unfold setD at hp
  by_cases hc : containsKey l k
  · rw [if_pos hc] at hp
    obtain ⟨q, hq, hqe⟩ := List.mem_map.mp hp
    by_cases he : q.1 = k
    · rw [if_pos he] at hqe
      left; rw [← hqe, he]
    · rw [if_neg he] at hqe
      right
      rw [← hqe]
      exact (by simpa using hq : q ∈ l)
  · rw [if_neg hc] at hp
    rcases List.mem_append.mp hp with h1 | h1
    · exact Or.inr h1
    · exact Or.inl (by simpa using h1)

theorem wEntry_le_16 (e : String × Int) : wEntry (some e) ≤ 16 := by
  simp only [wEntry]; omega

theorem ensure_pointwise (dv : DV) (src d : String) :
    wEntry (lookupD (ensure_src dv src) d) ≤ wEntry (lookupD dv d) := by
  unfold ensure_src
  by_cases h : containsKey dv src
  · rw [if_pos h]
  · rw [if_neg h]
    by_cases hd : d = src
    · subst hd
      rw [lookupD_setD_self]
      have hnone : lookupD dv d = none := by
        unfold containsKey at h
        cases hx : lookupD dv d with
        | none => rfl
        | some w => rw [hx] at h; simp at h
      rw [hnone]
      simp only [wEntry]
      decide
    · rw [lookupD_setD_ne dv src d _ hd]

theorem ensure_entries (dv : DV) (src : String) (As : List String) (hsrc : src ∈ As)
    (h : ∀ p ∈ dv, p.1 ∈ As ∧ 0 ≤ p.2.2) :
    ∀ p ∈ ensure_src dv src, p.1 ∈ As ∧ 0 ≤ p.2.2 := by
  intro p hp
  unfold ensure_src at hp
  by_cases hc : containsKey dv src
  · rw [if_pos hc] at hp; exact h p hp
  · rw [if_neg hc] at hp
    rcases mem_setD dv src (src, inf) p hp with he | he
    · rw [he]; exact ⟨hsrc, by dsimp only; decide⟩
    · exact h p he

theorem clamp_pointwise (s : String) (dv : DV) (d : String) :
    wEntry (lookupD (clamp_pass s dv) d) ≤ wEntry (lookupD dv d) := by
  rw [lookupD_clamp]
  cases he : lookupD dv d with
  | none => exact le_refl _
  | some e =>
    dsimp only [Option.map]
    unfold wEntry clamp_entry
    by_cases h1 : d = s
    · rw [if_pos h1]; dsimp only; omega
    · rw [if_neg h1]
      by_cases h2 : e.2 > inf
      · rw [if_pos h2]
        dsimp only
        unfold inf at h2
        omega
      · rw [if_neg h2]

theorem clamp_entries (s : String) (dv : DV) (As : List String)
    (h : ∀ p ∈ dv, p.1 ∈ As ∧ 0 ≤ p.2.2) :
    ∀ p ∈ clamp_pass s dv, (p.1 ∈ As ∧ 0 ≤ p.2.2) ∧ p.2.2 ≤ inf := by
  intro p hp
  unfold clamp_pass at hp
  obtain ⟨q, hq, hqe⟩ := List.mem_map.mp hp
  obtain ⟨hqA, hqnn⟩ := h q hq
  rw [← hqe]
  dsimp only
  unfold clamp_entry
  by_cases h1 : q.1 = s
  · rw [if_pos h1]
    exact ⟨⟨hqA, le_refl 0⟩, by dsimp only; decide⟩
  · rw [if_neg h1]
    by_cases h2 : q.2.2 > inf
    · rw [if_pos h2]
      exact ⟨⟨hqA, by dsimp only; decide⟩, le_refl inf⟩
    · rw [if_neg h2]
      exact ⟨⟨hqA, hqnn⟩, le_of_not_lt h2⟩

end DVR

namespace DVR

theorem learn_phi (As : List String) (src : String) :
    ∀ (t dv : DV) (cv : Nat) (dv' : DV) (cv' : Nat),
      learn_pass src dv cv t = some (dv', cv') →
      (∀ p ∈ t, p.1 ∈ As) →
      (∀ d, wEntry (lookupD dv' d) ≤ wEntry (lookupD dv d)) ∧
      ((dv' = dv ∧ cv' = cv) ∨ (cv' = 2 ∧ phiDV As dv' < phiDV As dv))
  | [], dv, cv, dv', cv', h, _ => by
    unfold learn_pass at h; simp at h
    exact ⟨fun d => by rw [← h.1], Or.inl ⟨h.1.symm, h.2.symm⟩⟩
  | (dst, (nh, c)) :: rest, dv, cv, dv', cv', h, hAs => by
    unfold learn_pass at h
    by_cases hd : containsKey dv dst
    · rw [if_pos hd] at h
      exact learn_phi As src rest dv cv dv' cv' h
        (fun p hp => hAs p (List.mem_cons_of_mem _ hp))
    · rw [if_neg hd] at h
      cases hs : lookupD dv src with
      | none => rw [hs] at h; simp at h
      | some e =>
        obtain ⟨a, cs⟩ := e
        rw [hs] at h
        have hnone : lookupD dv dst = none := by
          unfold containsKey at hd
          cases hx : lookupD dv dst with
          | none => rfl
          | some w => rw [hx] at hd; simp at hd
        have hpw : ∀ d, wEntry (lookupD (setD dv dst (nh, cs + c)) d) ≤
            wEntry (lookupD dv d) := by
          intro d
          by_cases hdd : d = dst
          · subst hdd
            rw [lookupD_setD_self, hnone]
            exact le_trans (wEntry_le_16 _) (by simp only [wEntry]; omega)
          · rw [lookupD_setD_ne dv dst d _ hdd]
        have hstrict : wEntry (lookupD (setD dv dst (nh, cs + c)) dst) <
            wEntry (lookupD dv dst) := by
          rw [lookupD_setD_self, hnone]
          exact lt_of_le_of_lt (wEntry_le_16 _) (by simp only [wEntry]; omega)
        have hphi : phiDV As (setD dv dst (nh, cs + c)) < phiDV As dv :=
          phiDV_lt_of_pointwise As dv _ (fun d _ => hpw d)
            ⟨dst, hAs (dst, (nh, c)) (List.mem_cons_self _ _), hstrict⟩
        obtain ⟨ihpw, ihdisj⟩ := learn_phi As src rest _ 2 dv' cv' h
          (fun p hp => hAs p (List.mem_cons_of_mem _ hp))
        refine ⟨fun d => le_trans (ihpw d) (hpw d), Or.inr ⟨?_, ?_⟩⟩
        · rcases ihdisj with ⟨_, hc2⟩ | ⟨hc2, _⟩ <;> exact hc2
        · rcases ihdisj with ⟨hdveq, _⟩ | ⟨_, hlt⟩
          · rw [hdveq]; exact hphi
          · exact lt_trans hlt hphi

theorem relax_phi (As : List String) (self src : String) :
    ∀ (t dv : DV) (cv : Nat) (dv' : DV) (cv' : Nat),
      relax_pass self src dv cv t = some (dv', cv') →
      (∀ p ∈ t, p.1 ∈ As) →
      (∀ p ∈ t, 0 ≤ p.2.2) →
      (∀ p ∈ dv, 0 ≤ p.2.2 ∧ p.2.2 ≤ inf) →
      (∀ d, wEntry (lookupD dv' d) ≤ wEntry (lookupD dv d)) ∧
      (cv' = cv ∨ (cv' = 2 ∧ phiDV As dv' < phiDV As dv)) ∧
      (∀ p ∈ dv', 0 ≤ p.2.2 ∧ p.2.2 ≤ inf)
  | [], dv, cv, dv', cv', h, _, _, hbnd => by
    unfold relax_pass at h; simp at h
    refine ⟨fun d => by rw [← h.1], Or.inl h.2.symm, ?_⟩
    rw [← h.1]; exact hbnd
  | (dst, (nh, c)) :: rest, dv, cv, dv', cv', h, hAs, hnn, hbnd => by
    unfold relax_pass at h
    by_cases hself : dst = self
    · rw [if_pos hself] at h
      exact relax_phi As self src rest dv cv dv' cv' h
        (fun p hp => hAs p (List.mem_cons_of_mem _ hp))
        (fun p hp => hnn p (List.mem_cons_of_mem _ hp)) hbnd
    · rw [if_neg hself] at h
      cases h1 : lookupD dv src with
      | none => rw [h1] at h; simp at h
      | some e1 =>
        obtain ⟨a1, cs⟩ := e1
        rw [h1] at h
        cases h2 : lookupD dv dst with
        | none => rw [h2] at h; simp at h
        | some e2 =>
          obtain ⟨a2, cd⟩ := e2
          rw [h2] at h
          dsimp only at h
          by_cases hlt : cs + c < cd
          · rw [if_pos hlt] at h
            have hcs : 0 ≤ cs ∧ cs ≤ inf := by
              have := hbnd (src, (a1, cs)) (lookupD_mem dv src (a1, cs) h1)
              exact this
            have hcd : 0 ≤ cd ∧ cd ≤ inf := by
              have := hbnd (dst, (a2, cd)) (lookupD_mem dv dst (a2, cd) h2)
              exact this
            have hc0 : (0 : Int) ≤ c := hnn (dst, (nh, c)) (List.mem_cons_self _ _)
            have hbnd2 : ∀ p ∈ setD dv dst (src, cs + c), 0 ≤ p.2.2 ∧ p.2.2 ≤ inf := by
              intro p hp
              rcases mem_setD dv dst _ p hp with he | he
              · rw [he]
                dsimp only
                unfold inf at hcs hcd ⊢
                omega
              · exact hbnd p he
            have hpw : ∀ d, wEntry (lookupD (setD dv dst (src, cs + c)) d) ≤
                wEntry (lookupD dv d) := by
              intro d
              by_cases hdd : d = dst
              · subst hdd
                rw [lookupD_setD_self, h2]
                simp only [wEntry]
                unfold inf at hcs hcd
                omega
              · rw [lookupD_setD_ne dv dst d _ hdd]
            have hstrict : wEntry (lookupD (setD dv dst (src, cs + c)) dst) <
                wEntry (lookupD dv dst) := by
              rw [lookupD_setD_self, h2]
              simp only [wEntry]
              unfold inf at hcs hcd
              omega
            have hphi : phiDV As (setD dv dst (src, cs + c)) < phiDV As dv :=
              phiDV_lt_of_pointwise As dv _ (fun d _ => hpw d)
                ⟨dst, hAs (dst, (nh, c)) (List.mem_cons_self _ _), hstrict⟩
            obtain ⟨ihpw, ihdisj, ihbnd⟩ := relax_phi As self src rest _ 2 dv' cv' h
              (fun p hp => hAs p (List.mem_cons_of_mem _ hp))
              (fun p hp => hnn p (List.mem_cons_of_mem _ hp)) hbnd2
            refine ⟨fun d => le_trans (ihpw d) (hpw d), Or.inr ⟨?_, ?_⟩, ihbnd⟩
            · rcases ihdisj with hc2 | ⟨hc2, _⟩ <;> exact hc2
            · rcases ihdisj with _ | ⟨_, hlt2⟩
              · exact lt_of_le_of_lt (phiDV_le_of_pointwise As _ dv' (fun d _ => ihpw d)) hphi
              · exact lt_trans hlt2 hphi
          · rw [if_neg hlt] at h
            exact relax_phi As self src rest dv cv dv' cv' h
              (fun p hp => hAs p (List.mem_cons_of_mem _ hp))
              (fun p hp => hnn p (List.mem_cons_of_mem _ hp)) hbnd

theorem relax_keys (As : List String) (self src : String) :
    ∀ (t dv : DV) (cv : Nat) (dv' : DV) (cv' : Nat),
      relax_pass self src dv cv t = some (dv', cv') →
      (∀ p ∈ t, p.1 ∈ As) →
      (∀ p ∈ dv, p.1 ∈ As) →
      ∀ p ∈ dv', p.1 ∈ As
  | [], dv, cv, dv', cv', h, _, hdv => by
    unfold relax_pass at h; simp at h; rw [← h.1]; exact hdv
  | (dst, (nh, c)) :: rest, dv, cv, dv', cv', h, hAs, hdv => by
    unfold relax_pass at h
    by_cases hself : dst = self
    · rw [if_pos hself] at h
      exact relax_keys As self src rest dv cv dv' cv' h
        (fun p hp => hAs p (List.mem_cons_of_mem _ hp)) hdv
    · rw [if_neg hself] at h
      cases h1 : lookupD dv src with
      | none => rw [h1] at h; simp at h
      | some e1 =>
        obtain ⟨a1, cs⟩ := e1
        rw [h1] at h
        cases h2 : lookupD dv dst with
        | none => rw [h2] at h; simp at h
        | some e2 =>
          obtain ⟨a2, cd⟩ := e2
          rw [h2] at h
          dsimp only at h
          by_cases hlt : cs + c < cd
          · rw [if_pos hlt] at h
            refine relax_keys As self src rest _ 2 dv' cv' h
              (fun p hp => hAs p (List.mem_cons_of_mem _ hp)) ?_
            intro p hp
            rcases mem_setD dv dst _ p hp with he | he
            · rw [he]; exact hAs (dst, (nh, c)) (List.mem_cons_self _ _)
            · exact hdv p he
          · rw [if_neg hlt] at h
            exact relax_keys As self src rest dv cv dv' cv' h
              (fun p hp => hAs p (List.mem_cons_of_mem _ hp)) hdv

theorem learn_entries (As : List String) (src : String) :
    ∀ (t dv : DV) (cv : Nat) (dv' : DV) (cv' : Nat),
      learn_pass src dv cv t = some (dv', cv') →
      (∀ p ∈ dv, p.1 ∈ As ∧ 0 ≤ p.2.2) →
      (∀ p ∈ t, p.1 ∈ As ∧ 0 ≤ p.2.2) →
      ∀ p ∈ dv', p.1 ∈ As ∧ 0 ≤ p.2.2
  | [], dv, cv, dv', cv', h, hdv, _ => by
    unfold learn_pass at h; simp at h; rw [← h.1]; exact hdv
  | (dst, (nh, c)) :: rest, dv, cv, dv', cv', h, hdv, ht => by
    unfold learn_pass at h
    by_cases hd : containsKey dv dst
    · rw [if_pos hd] at h
      exact learn_entries As src rest dv cv dv' cv' h hdv
        (fun p hp => ht p (List.mem_cons_of_mem _ hp))
    · rw [if_neg hd] at h
      cases hs : lookupD dv src with
      | none => rw [hs] at h; simp at h
      | some e =>
        obtain ⟨a, cs⟩ := e
        rw [hs] at h
        refine learn_entries As src rest _ 2 dv' cv' h ?_
          (fun p hp => ht p (List.mem_cons_of_mem _ hp))
        intro p hp
        rcases mem_setD dv dst _ p hp with he | he
        · rw [he]
          refine ⟨(ht (dst, (nh, c)) (List.mem_cons_self _ _)).1, ?_⟩
          have hcs : 0 ≤ cs := (hdv (src, (a, cs)) (lookupD_mem dv src (a, cs) hs)).2
          have hc : 0 ≤ c := (ht (dst, (nh, c)) (List.mem_cons_self _ _)).2
          dsimp only
          omega
        · exact hdv p he

end DVR

namespace DVR

theorem update_phi (As : List String) (r : Router) (src : String) (table : DV) (r' : Router)
    (hu : r.update_dv src table = some r')
    (hsrcA : src ∈ As)
    (hdv : ∀ p ∈ r.dv, p.1 ∈ As ∧ 0 ≤ p.2.2)
    (ht : ∀ p ∈ table, p.1 ∈ As ∧ 0 ≤ p.2.2) :
    phiDV As r'.dv ≤ phiDV As r.dv ∧
    (r'.converged = r.converged ∨ (r'.converged = 2 ∧ phiDV As r'.dv < phiDV As r.dv)) ∧
    (∀ p ∈ r'.dv, p.1 ∈ As ∧ 0 ≤ p.2.2) ∧
    r'.addr = r.addr ∧ r'.outs = r.outs ∧ r'.costs = r.costs := by
  obtain ⟨dv1, cv1, dv3, cv3, hal, hrelax, hr'⟩ := update_dv_shape r src table r' hu
  have hal2 : learn_pass src (ensure_src r.dv src) r.converged table = some (dv1, cv1) := hal
  have hens_pw : ∀ d, wEntry (lookupD (ensure_src r.dv src) d) ≤ wEntry (lookupD r.dv d) :=
    ensure_pointwise r.dv src
  have hens_ent : ∀ p ∈ ensure_src r.dv src, p.1 ∈ As ∧ 0 ≤ p.2.2 :=
    ensure_entries r.dv src As hsrcA hdv
  obtain ⟨hlearn_pw, hlearn_disj⟩ :=
    learn_phi As src table _ _ dv1 cv1 hal2 (fun p hp => (ht p hp).1)
  have hdv1_ent : ∀ p ∈ dv1, p.1 ∈ As ∧ 0 ≤ p.2.2 :=
    learn_entries As src table _ _ dv1 cv1 hal2 hens_ent ht
  have hdv2_ent := clamp_entries r.addr dv1 As hdv1_ent
  obtain ⟨hrelax_pw, hrelax_disj, hdv3_bnd⟩ :=
    relax_phi As r.addr src table _ cv1 dv3 cv3 hrelax
      (fun p hp => (ht p hp).1) (fun p hp => (ht p hp).2)
      (fun p hp => ⟨(hdv2_ent p hp).1.2, (hdv2_ent p hp).2⟩)
  have hdv3_keys : ∀ p ∈ dv3, p.1 ∈ As :=
    relax_keys As r.addr src table _ cv1 dv3 cv3 hrelax
      (fun p hp => (ht p hp).1) (fun p hp => (hdv2_ent p hp).1.1)
  have hdv4_ent :=
    clamp_entries r.addr dv3 As (fun p hp => ⟨hdv3_keys p hp, (hdv3_bnd p hp).1⟩)
  have c1 : phiDV As (ensure_src r.dv src) ≤ phiDV As r.dv :=
    phiDV_le_of_pointwise _ _ _ (fun d _ => hens_pw d)
  have c2 : phiDV As dv1 ≤ phiDV As (ensure_src r.dv src) :=
    phiDV_le_of_pointwise _ _ _ (fun d _ => hlearn_pw d)
  have c3 : phiDV As (clamp_pass r.addr dv1) ≤ phiDV As dv1 :=
    phiDV_le_of_pointwise _ _ _ (fun d _ => clamp_pointwise r.addr dv1 d)
  have c4 : phiDV As dv3 ≤ phiDV As (clamp_pass r.addr dv1) :=
    phiDV_le_of_pointwise _ _ _ (fun d _ => hrelax_pw d)
  have c5 : phiDV As (clamp_pass r.addr dv3) ≤ phiDV As dv3 :=
    phiDV_le_of_pointwise _ _ _ (fun d _ => clamp_pointwise r.addr dv3 d)
  subst hr'
  dsimp only
  refine ⟨le_trans c5 (le_trans c4 (le_trans c3 (le_trans c2 c1))), ?_,
    fun p hp => (hdv4_ent p hp).1, rfl, rfl, rfl⟩
  rcases hlearn_disj with ⟨hdv1eq, hcv1eq⟩ | ⟨hcv1_2, hlt1⟩
  · rcases hrelax_disj with hcv3eq | ⟨hcv3_2, hlt3⟩
    · exact Or.inl (hcv3eq.trans hcv1eq)
    · exact Or.inr ⟨hcv3_2,
        lt_of_le_of_lt c5 (lt_of_lt_of_le hlt3 (le_trans c3 (le_trans c2 c1)))⟩
  · have hcv3_2 : cv3 = 2 := by
      rcases hrelax_disj with hcv3eq | ⟨hx, _⟩
      · exact hcv3eq.trans hcv1_2
      · exact hx
    exact Or.inr ⟨hcv3_2,
      lt_of_le_of_lt (le_trans c5 (le_trans c4 c3)) (lt_of_lt_of_le hlt1 c1)⟩

end DVR

namespace DVR

/-! ### Characterization of send_dv at the network level -/

theorem mem_keys_of_lookupD {κ β : Type} [DecidableEq κ] (l : List (κ × β)) (k : κ) (v : β)
    (h : lookupD l k = some v) : k ∈ l.map Prod.fst :=
  List.mem_map.mpr ⟨(k, v), lookupD_mem l k v h, rfl⟩

theorem keys_setD_present {κ β : Type} [DecidableEq κ] (l : List (κ × β)) (k : κ) (v : β)
    (h : containsKey l k = true) : (setD l k v).map Prod.fst = l.map Prod.fst := by
  unfold setD
  rw [if_pos h, List.map_map]
  rfl

theorem enqueue_routers (net : Network) (d : String) (p : Packet) :
    (enqueue net d p).routers = net.routers := by
  unfold enqueue
  cases lookupD net.queues d with
  | none => rfl
  | some q => rfl

theorem enqueue_qkeys (net : Network) (d : String) (p : Packet) :
    (enqueue net d p).queues.map Prod.fst = net.queues.map Prod.fst := by
  unfold enqueue
  cases hq : lookupD net.queues d with
  | none => rfl
  | some q =>
    dsimp only
    exact keys_setD_present net.queues d _ (by unfold containsKey; rw [hq]; rfl)

theorem foldl_enqueue_routers (a : String) :
    ∀ (outs : List String) (net : Network),
      (outs.foldl (fun acc d => enqueue acc d (Packet.dvp a d)) net).routers = net.routers
  | [], _ => rfl
  | d :: rest, net => by
    rw [List.foldl_cons, foldl_enqueue_routers a rest, enqueue_routers]

theorem foldl_enqueue_qkeys (a : String) :
    ∀ (outs : List String) (net : Network),
      (outs.foldl (fun acc d => enqueue acc d (Packet.dvp a d)) net).queues.map Prod.fst =
        net.queues.map Prod.fst
  | [], _ => rfl
  | d :: rest, net => by
    rw [List.foldl_cons, foldl_enqueue_qkeys a rest, enqueue_qkeys]

theorem enqueue_qpok (K : List String) (a : String) (haK : a ∈ K) (net : Network) (d : String)
    (hq : ∀ p ∈ net.queues, ∀ pk ∈ p.2, ∃ s, pk = Packet.dvp s p.1 ∧ s ∈ K) :
    ∀ p ∈ (enqueue net d (Packet.dvp a d)).queues, ∀ pk ∈ p.2,
      ∃ s, pk = Packet.dvp s p.1 ∧ s ∈ K := by
  intro p hp pk hpk
  unfold enqueue at hp
  cases hqd : lookupD net.queues d with
  | none => rw [hqd] at hp; exact hq p hp pk hpk
  | some q =>
    rw [hqd] at hp
    dsimp only at hp
    rcases mem_setD net.queues d _ p hp with he | he
    · subst he
      dsimp only at hpk
      rcases List.mem_append.mp hpk with h1 | h1
      · exact hq (d, q) (lookupD_mem net.queues d q hqd) pk h1
      · have : pk = Packet.dvp a d := by simpa using h1
        exact ⟨a, by rw [this], haK⟩
    · exact hq p he pk hpk

theorem foldl_enqueue_qpok (K : List String) (a : String) (haK : a ∈ K) :
    ∀ (outs : List String) (net : Network),
      (∀ p ∈ net.queues, ∀ pk ∈ p.2, ∃ s, pk = Packet.dvp s p.1 ∧ s ∈ K) →
      ∀ p ∈ (outs.foldl (fun acc d => enqueue acc d (Packet.dvp a d)) net).queues,
        ∀ pk ∈ p.2, ∃ s, pk = Packet.dvp s p.1 ∧ s ∈ K
  | [], net, hq => hq
  | d :: rest, net, hq => by
    rw [List.foldl_cons]
    exact foldl_enqueue_qpok K a haK rest _ (enqueue_qpok K a haK net d hq)

theorem send_one_routers (net : Network) (a : String) :
    ∀ d, lookupD (send_one net a).routers d =
      if d = a then (lookupD net.routers a).map sendAdj else lookupD net.routers d := by
  intro d
  unfold send_one
  cases hr : lookupD net.routers a with
  | none =>
    dsimp only [Option.map]
    by_cases hd : d = a
    · rw [if_pos hd, hd]; exact hr
    · rw [if_neg hd]
  | some r =>
    dsimp only [Option.map]
    by_cases h0 : r.converged = 0
    · rw [if_pos h0]
      unfold sendAdj
      rw [if_pos h0]
      by_cases hd : d = a
      · rw [if_pos hd, hd]; exact hr
      · rw [if_neg hd]
    · rw [if_neg h0]
      unfold sendAdj
      rw [if_neg h0]
      rw [foldl_enqueue_routers]
      dsimp only
      by_cases hd : d = a
      · subst hd
        rw [if_pos rfl]
        exact lookupD_setD_self net.routers d _
      · rw [if_neg hd]
        exact lookupD_setD_ne net.routers a d _ hd

theorem send_one_rkeys (net : Network) (a : String) :
    (send_one net a).routers.map Prod.fst = net.routers.map Prod.fst := by
  unfold send_one
  cases hr : lookupD net.routers a with
  | none => rfl
  | some r =>
    dsimp only
    by_cases h0 : r.converged = 0
    · rw [if_pos h0]
    · rw [if_neg h0]
      rw [foldl_enqueue_routers]
      dsimp only
      exact keys_setD_present net.routers a _ (by unfold containsKey; rw [hr]; rfl)

theorem send_one_qkeys (net : Network) (a : String) :
    (send_one net a).queues.map Prod.fst = net.queues.map Prod.fst := by
  unfold send_one
  cases hr : lookupD net.routers a with
  | none => rfl
  | some r =>
    dsimp only
    by_cases h0 : r.converged = 0
    · rw [if_pos h0]
    · rw [if_neg h0]
      exact foldl_enqueue_qkeys a r.outs _

theorem send_one_qpok (K : List String) (net : Network) (a : String)
    (hK : net.routers.map Prod.fst = K)
    (hq : ∀ p ∈ net.queues, ∀ pk ∈ p.2, ∃ s, pk = Packet.dvp s p.1 ∧ s ∈ K) :
    ∀ p ∈ (send_one net a).queues, ∀ pk ∈ p.2, ∃ s, pk = Packet.dvp s p.1 ∧ s ∈ K := by
  unfold send_one
  cases hr : lookupD net.routers a with
  | none => exact hq
  | some r =>
    dsimp only
    by_cases h0 : r.converged = 0
    · rw [if_pos h0]; exact hq
    · rw [if_neg h0]
      have haK : a ∈ K := hK ▸ mem_keys_of_lookupD net.routers a r hr
      exact foldl_enqueue_qpok K a haK r.outs _ hq

end DVR

namespace DVR

theorem send_fold_routers :
    ∀ (L : List String) (net : Network), L.Nodup →
      ∀ d, lookupD (L.foldl send_one net).routers d =
        if d ∈ L then (lookupD net.routers d).map sendAdj else lookupD net.routers d
  | [], net, _, d => by simp
  | a :: L', net, hnd, d => by
    rw [List.foldl_cons]
    have hnd' : L'.Nodup := (List.nodup_cons.mp hnd).2
    have hanotin : a ∉ L' := (List.nodup_cons.mp hnd).1
    rw [send_fold_routers L' (send_one net a) hnd' d]
    by_cases hdL : d ∈ L'
    · rw [if_pos hdL, if_pos (List.mem_cons_of_mem _ hdL)]
      have hda : d ≠ a := fun he => hanotin (he ▸ hdL)
      rw [send_one_routers net a d, if_neg hda]
    · rw [if_neg hdL]
      rw [send_one_routers net a d]
      by_cases hda : d = a
      · rw [if_pos hda, if_pos (by rw [hda]; exact List.mem_cons_self _ _), hda]
      · rw [if_neg hda, if_neg (by
          intro hmem
          rcases List.mem_cons.mp hmem with he | he
          · exact hda he
          · exact hdL he)]

theorem send_fold_rkeys :
    ∀ (L : List String) (net : Network),
      (L.foldl send_one net).routers.map Prod.fst = net.routers.map Prod.fst
  | [], _ => rfl
  | a :: L', net => by
    rw [List.foldl_cons, send_fold_rkeys L' (send_one net a), send_one_rkeys]

theorem send_fold_qkeys :
    ∀ (L : List String) (net : Network),
      (L.foldl send_one net).queues.map Prod.fst = net.queues.map Prod.fst
  | [], _ => rfl
  | a :: L', net => by
    rw [List.foldl_cons, send_fold_qkeys L' (send_one net a), send_one_qkeys]

theorem send_fold_qpok (K : List String) :
    ∀ (L : List String) (net : Network),
      net.routers.map Prod.fst = K →
      (∀ p ∈ net.queues, ∀ pk ∈ p.2, ∃ s, pk = Packet.dvp s p.1 ∧ s ∈ K) →
      ∀ p ∈ (L.foldl send_one net).queues, ∀ pk ∈ p.2,
        ∃ s, pk = Packet.dvp s p.1 ∧ s ∈ K
  | [], net, _, hq => hq
  | a :: L', net, hK, hq => by
    rw [List.foldl_cons]
    exact send_fold_qpok K L' (send_one net a)
      (by rw [send_one_rkeys]; exact hK)
      (send_one_qpok K net a hK hq)

/-- Full characterization of Network.send_dv on the routers. -/
theorem send_dv_routers (net : Network) (hnd : (net.routers.map Prod.fst).Nodup) :
    ∀ d, lookupD net.send_dv.routers d =
      if d ∈ net.routers.map Prod.fst then (lookupD net.routers d).map sendAdj
      else lookupD net.routers d :=
  send_fold_routers (net.routers.map Prod.fst) net hnd

theorem send_dv_rkeys (net : Network) :
    net.send_dv.routers.map Prod.fst = net.routers.map Prod.fst :=
  send_fold_rkeys (net.routers.map Prod.fst) net

theorem send_dv_qkeys (net : Network) :
    net.send_dv.queues.map Prod.fst = net.queues.map Prod.fst :=
  send_fold_qkeys (net.routers.map Prod.fst) net

theorem send_dv_qpok (net : Network) (K : List String)
    (hK : net.routers.map Prod.fst = K)
    (hq : ∀ p ∈ net.queues, ∀ pk ∈ p.2, ∃ s, pk = Packet.dvp s p.1 ∧ s ∈ K) :
    ∀ p ∈ net.send_dv.queues, ∀ pk ∈ p.2, ∃ s, pk = Packet.dvp s p.1 ∧ s ∈ K :=
  send_fold_qpok K (net.routers.map Prod.fst) net hK hq

end DVR

namespace DVR

/-! ### Characterization of route at the network level -/

theorem lookupD_of_mem_nodup {κ β : Type} [DecidableEq κ] :
    ∀ (l : List (κ × β)) (k : κ) (v : β),
      (k, v) ∈ l → (l.map Prod.fst).Nodup → lookupD l k = some v
  | [], k, v, hm, _ => absurd hm (List.not_mem_nil _)
  | (a, b) :: t, k, v, hm, hnd => by
    have hnd' : (t.map Prod.fst).Nodup := (List.nodup_cons.mp (by simpa using hnd)).2
    have hna : a ∉ t.map Prod.fst := (List.nodup_cons.mp (by simpa using hnd)).1
    rcases List.mem_cons.mp hm with he | ht
    · obtain ⟨h1, h2⟩ := Prod.mk.injEq _ _ _ _ ▸ he
      unfold lookupD
      rw [if_pos h1.symm]
      rw [h2]
    · have hka : a ≠ k := by
        intro he2
        apply hna
        rw [he2]
        exact List.mem_map.mpr ⟨(k, v), ht, rfl⟩
      unfold lookupD
      rw [if_neg hka]
      exact lookupD_of_mem_nodup t k v ht hnd'

theorem lookupD_none_of_nmem_keys {κ β : Type} [DecidableEq κ] (l : List (κ × β)) (k : κ)
    (h : k ∉ l.map Prod.fst) : lookupD l k = none := by
  cases hx : lookupD l k with
  | none => rfl
  | some v => exact absurd (mem_keys_of_lookupD l k v hx) h

theorem process_dvp (net : Network) (a s : String) (r sender : Router)
    (hr : lookupD net.routers a = some r)
    (hs : lookupD net.routers s = some sender) :
    ∃ r', r.update_dv s sender.dv = some r' ∧
      process_packet net a (Packet.dvp s a) =
        some ({ net with routers := setD net.routers a r' }, [Ev.dvReceived a s]) := by
  obtain ⟨r', hr'⟩ : ∃ r', r.update_dv s sender.dv = some r' := by
    have ht := update_dv_isSome r s sender.dv
    cases hx : r.update_dv s sender.dv with
    | none => rw [hx] at ht; simp at ht
    | some w => exact ⟨w, rfl⟩
  refine ⟨r', hr', ?_⟩
  unfold process_packet
  rw [hr]
  dsimp only
  simp only [Packet.dst, Packet.src]
  rw [if_pos trivial]
  unfold read_packet
  dsimp only
  rw [hs]
  dsimp only
  rw [hr']

theorem drain_dvp (As : List String) :
    ∀ (q : List Packet) (net : Network) (a : String) (r : Router),
      lookupD net.queues a = some q →
      lookupD net.routers a = some r →
      (∀ pk ∈ q, ∃ s, pk = Packet.dvp s a ∧ containsKey net.routers s = true) →
      (∀ p ∈ net.routers, ∀ e ∈ p.2.dv, e.1 ∈ As ∧ 0 ≤ e.2.2) →
      (∀ k ∈ net.routers.map Prod.fst, k ∈ As) →
      ∃ net' evs r'',
        route_one a q.length net = some (net', evs) ∧
        lookupD net'.queues a = some [] ∧
        (∀ d, d ≠ a → lookupD net'.queues d = lookupD net.queues d) ∧
        net'.queues.map Prod.fst = net.queues.map Prod.fst ∧
        lookupD net'.routers a = some r'' ∧
        (∀ d, d ≠ a → lookupD net'.routers d = lookupD net.routers d) ∧
        net'.routers.map Prod.fst = net.routers.map Prod.fst ∧
        phiDV As r''.dv ≤ phiDV As r.dv ∧
        (r''.converged = r.converged ∨
          (r''.converged = 2 ∧ phiDV As r''.dv < phiDV As r.dv)) ∧
        r''.addr = r.addr ∧ r''.outs = r.outs ∧ r''.costs = r.costs ∧
        (∀ p ∈ net'.routers, ∀ e ∈ p.2.dv, e.1 ∈ As ∧ 0 ≤ e.2.2)
  | [], net, a, r, hq, hr, _, hdvinv, _ => by
    refine ⟨net, [], r, ?_, hq, fun d _ => rfl, rfl, hr, fun d _ => rfl, rfl,
      le_refl _, Or.inl rfl, rfl, rfl, rfl, hdvinv⟩
    show route_one a 0 net = some (net, [])
    unfold route_one
    rw [hq]
  | pk :: rest, net, a, r, hq, hr, hqok, hdvinv, hkAs => by
    obtain ⟨s, hpk, hcs⟩ := hqok pk (List.mem_cons_self _ _)
    obtain ⟨sender, hsender⟩ : ∃ sender, lookupD net.routers s = some sender := by
      unfold containsKey at hcs
      cases hx : lookupD net.routers s with
      | none => rw [hx] at hcs; simp at hcs
      | some w => exact ⟨w, rfl⟩
    subst hpk
    have hqcontains : containsKey net.queues a = true := by
      unfold containsKey; rw [hq]; rfl
    have hrcontains : containsKey net.routers a = true := by
      unfold containsKey; rw [hr]; rfl
    obtain ⟨r', hupd, hproc⟩ :=
      process_dvp { net with queues := setD net.queues a rest } a s r sender hr hsender
    have hphi := update_phi As r s sender.dv r' hupd
      (hkAs s (mem_keys_of_lookupD net.routers s sender hsender))
      (fun e he => hdvinv (a, r) (lookupD_mem net.routers a r hr) e he)
      (fun e he => hdvinv (s, sender) (lookupD_mem net.routers s sender hsender) e he)
    obtain ⟨hphile, hphidisj, hent', haddr', houts', hcosts'⟩ := hphi
    set net2 : Network :=
      { routers := setD net.routers a r', queues := setD net.queues a rest } with hnet2
    have hq2 : lookupD net2.queues a = some rest := lookupD_setD_self net.queues a rest
    have hr2 : lookupD net2.routers a = some r' := lookupD_setD_self net.routers a r'
    have hrk2 : net2.routers.map Prod.fst = net.routers.map Prod.fst :=
      keys_setD_present net.routers a r' hrcontains
    have hqk2 : net2.queues.map Prod.fst = net.queues.map Prod.fst :=
      keys_setD_present net.queues a rest hqcontains
    have hqok2 : ∀ pk2 ∈ rest, ∃ s2, pk2 = Packet.dvp s2 a ∧
        containsKey net2.routers s2 = true := by
      intro pk2 hpk2
      obtain ⟨s2, he2, hc2⟩ := hqok pk2 (List.mem_cons_of_mem _ hpk2)
      exact ⟨s2, he2, containsKey_setD_of net.routers a s2 r' hc2⟩
    have hdvinv2 : ∀ p ∈ net2.routers, ∀ e ∈ p.2.dv, e.1 ∈ As ∧ 0 ≤ e.2.2 := by
      intro p hp e he
      rcases mem_setD net.routers a r' p hp with he2 | he2
      · rw [he2] at he
        exact hent' e he
      · exact hdvinv p he2 e he
    have hkAs2 : ∀ k ∈ net2.routers.map Prod.fst, k ∈ As := by
      rw [hrk2]; exact hkAs
    obtain ⟨net', evs', r'', hrun, hq'a, hq'ne, hq'k, hr'a, hr'ne, hr'k,
      hphile2, hdisj2, haddr2, houts2, hcosts2, hdvinv'⟩ :=
      drain_dvp As rest net2 a r' hq2 hr2 hqok2 hdvinv2 hkAs2
    refine ⟨net', Ev.dvReceived a s :: evs', r'', ?_, hq'a, ?_, ?_, hr'a, ?_, ?_,
      le_trans hphile2 hphile, ?_, haddr2.trans haddr', houts2.trans houts',
      hcosts2.trans hcosts', hdvinv'⟩
    · show route_one a (rest.length + 1) net = some (net', Ev.dvReceived a s :: evs')
      unfold route_one
      rw [hq]
      dsimp only
      rw [hproc]
      dsimp only
      rw [hrun]
      rfl
    · intro d hd
      rw [hq'ne d hd]
      exact lookupD_setD_ne net.queues a d rest hd
    · rw [hq'k]; exact hqk2
    · intro d hd
      rw [hr'ne d hd]
      exact lookupD_setD_ne net.routers a d r' hd
    · rw [hr'k]; exact hrk2
    · rcases hdisj2 with he | ⟨h2, hlt⟩
      · rcases hphidisj with he2 | ⟨h2b, hltb⟩
        · exact Or.inl (he.trans he2)
        · exact Or.inr ⟨he.trans h2b, lt_of_le_of_lt hphile2 hltb⟩
      · exact Or.inr ⟨h2, lt_of_lt_of_le hlt hphile⟩

end DVR

namespace DVR

theorem containsKey_trans_keys {κ β γ : Type} [DecidableEq κ] (l : List (κ × β))
    (l' : List (κ × γ)) (k : κ) (hk : l.map Prod.fst = l'.map Prod.fst)
    (h : containsKey l k = true) : containsKey l' k = true := by
  have h1 : k ∈ l.map Prod.fst := by
    unfold containsKey at h
    cases hx : lookupD l k with
    | none => rw [hx] at h; simp at h
    | some v => exact mem_keys_of_lookupD l k v hx
  exact containsKey_of_mem_keys l' k (hk ▸ h1)

theorem route_fold (As : List String) :
    ∀ (L : List String) (net : Network) (evs0 : List Ev),
      L.Nodup →
      (∀ a ∈ L, containsKey net.routers a = true) →
      (∀ a ∈ L, containsKey net.queues a = true) →
      (net.queues.map Prod.fst).Nodup →
      (∀ p ∈ net.queues, ∀ pk ∈ p.2, ∃ s, pk = Packet.dvp s p.1 ∧
        containsKey net.routers s = true) →
      (∀ p ∈ net.routers, ∀ e ∈ p.2.dv, e.1 ∈ As ∧ 0 ≤ e.2.2) →
      (∀ k ∈ net.routers.map Prod.fst, k ∈ As) →
      ∃ net' evs,
        (L.foldl
          (fun acc a =>
            match acc with
            | none => none
            | some (n, evs) =>
              match route_one a ((lookupD n.queues a).getD []).length n with
              | none => none
              | some (n', evs') => some (n', evs ++ evs'))
          (some (net, evs0))) = some (net', evs) ∧
        net'.routers.map Prod.fst = net.routers.map Prod.fst ∧
        net'.queues.map Prod.fst = net.queues.map Prod.fst ∧
        (∀ d, d ∉ L → lookupD net'.queues d = lookupD net.queues d) ∧
        (∀ d, d ∈ L → lookupD net'.queues d = some []) ∧
        (∀ d, d ∉ L → lookupD net'.routers d = lookupD net.routers d) ∧
        (∀ d r, lookupD net.routers d = some r →
          ∃ r', lookupD net'.routers d = some r' ∧
            phiDV As r'.dv ≤ phiDV As r.dv ∧
            (r'.converged = r.converged ∨
              (r'.converged = 2 ∧ phiDV As r'.dv < phiDV As r.dv)) ∧
            r'.addr = r.addr ∧ r'.outs = r.outs ∧ r'.costs = r.costs) ∧
        (∀ p ∈ net'.routers, ∀ e ∈ p.2.dv, e.1 ∈ As ∧ 0 ≤ e.2.2)
  | [], net, evs0, _, _, _, _, _, hdvinv, _ =>
    ⟨net, evs0, rfl, rfl, rfl, fun d _ => rfl, fun d hd => absurd hd (List.not_mem_nil d),
      fun d _ => rfl,
      fun d r h => ⟨r, h, le_refl _, Or.inl rfl, rfl, rfl, rfl⟩, hdvinv⟩
  | a :: L', net, evs0, hnd, hrc, hqc, hqknd, hqok, hdvinv, hkAs => by
    have hndL : L'.Nodup := (List.nodup_cons.mp hnd).2
    have hanL : a ∉ L' := (List.nodup_cons.mp hnd).1
    obtain ⟨r, hr⟩ : ∃ r, lookupD net.routers a = some r := by
      have := hrc a (List.mem_cons_self _ _)
      unfold containsKey at this
      cases hx : lookupD net.routers a with
      | none => rw [hx] at this; simp at this
      | some w => exact ⟨w, rfl⟩
    obtain ⟨q, hq⟩ : ∃ q, lookupD net.queues a = some q := by
      have := hqc a (List.mem_cons_self _ _)
      unfold containsKey at this
      cases hx : lookupD net.queues a with
      | none => rw [hx] at this; simp at this
      | some w => exact ⟨w, rfl⟩
    have hqokA : ∀ pk ∈ q, ∃ s, pk = Packet.dvp s a ∧ containsKey net.routers s = true :=
      hqok (a, q) (lookupD_mem net.queues a q hq)
    obtain ⟨net2, evs2, r'', hrun, hq2a, hq2ne, hq2k, hr2a, hr2ne, hr2k,
      hphile, hdisj, haddr, houts, hcosts, hdvinv2⟩ :=
      drain_dvp As q net a r hq hr hqokA hdvinv hkAs
    have hstep1 :
        (List.foldl
          (fun acc a =>
            match acc with
            | none => none
            | some (n, evs) =>
              match route_one a ((lookupD n.queues a).getD []).length n with
              | none => none
              | some (n', evs') => some (n', evs ++ evs'))
          (some (net, evs0)) (a :: L')) =
        (List.foldl
          (fun acc a =>
            match acc with
            | none => none
            | some (n, evs) =>
              match route_one a ((lookupD n.queues a).getD []).length n with
              | none => none
              | some (n', evs') => some (n', evs ++ evs'))
          (some (net2, evs0 ++ evs2)) L') := by
      rw [List.foldl_cons]
      congr 1
      dsimp only
      rw [hq]
      dsimp only [Option.getD]
      rw [hrun]
    have hqknd2 : (net2.queues.map Prod.fst).Nodup := by rw [hq2k]; exact hqknd
    have hrc2 : ∀ b ∈ L', containsKey net2.routers b = true := fun b hb =>
      containsKey_trans_keys net.routers net2.routers b hr2k.symm
        (hrc b (List.mem_cons_of_mem _ hb))
    have hqc2 : ∀ b ∈ L', containsKey net2.queues b = true := fun b hb =>
      containsKey_trans_keys net.queues net2.queues b hq2k.symm
        (hqc b (List.mem_cons_of_mem _ hb))
    have hqok2 : ∀ p ∈ net2.queues, ∀ pk ∈ p.2, ∃ s, pk = Packet.dvp s p.1 ∧
        containsKey net2.routers s = true := by
      intro p hp pk hpk
      have hlk : lookupD net2.queues p.1 = some p.2 :=
        lookupD_of_mem_nodup net2.queues p.1 p.2 hp hqknd2
      by_cases hpa : p.1 = a
      · rw [hpa] at hlk
        rw [hq2a] at hlk
        simp only [Option.some_inj] at hlk
        rw [← hlk] at hpk
        exact absurd hpk (List.not_mem_nil pk)
      · rw [hq2ne p.1 hpa] at hlk
        obtain ⟨s, he, hc⟩ := hqok (p.1, p.2) (lookupD_mem net.queues p.1 p.2 hlk) pk hpk
        exact ⟨s, he, containsKey_trans_keys net.routers net2.routers s hr2k.symm hc⟩
    have hkAs2 : ∀ k ∈ net2.routers.map Prod.fst, k ∈ As := by
      rw [hr2k]; exact hkAs
    obtain ⟨net3, evs3, hfold, hk3, hqk3, hq3ne, hq3mem, hr3ne, hr3pt, hdvinv3⟩ :=
      route_fold As L' net2 (evs0 ++ evs2) hndL hrc2 hqc2 hqknd2 hqok2 hdvinv2 hkAs2
    refine ⟨net3, evs3, hstep1.trans hfold, hk3.trans hr2k, hqk3.trans hq2k,
      ?_, ?_, ?_, ?_, hdvinv3⟩
    · intro d hd
      have hda : d ≠ a := fun he => hd (he ▸ List.mem_cons_self _ _)
      have hdL : d ∉ L' := fun he => hd (List.mem_cons_of_mem _ he)
      rw [hq3ne d hdL, hq2ne d hda]
    · intro d hd
      rcases List.mem_cons.mp hd with he | he
      · subst he
        rw [hq3ne d hanL]
        exact hq2a
      · exact hq3mem d he
    · intro d hd
      have hda : d ≠ a := fun he => hd (he ▸ List.mem_cons_self _ _)
      have hdL : d ∉ L' := fun he => hd (List.mem_cons_of_mem _ he)
      rw [hr3ne d hdL, hr2ne d hda]
    · intro d r0 h0
      by_cases hda : d = a
      · subst hda
        rw [hr] at h0
        simp only [Option.some_inj] at h0
        subst h0
        refine ⟨r'', ?_, hphile, hdisj, haddr, houts, hcosts⟩
        rw [hr3ne d hanL]
        exact hr2a
      · have h2 : lookupD net2.routers d = some r0 := by
          rw [hr2ne d hda]; exact h0
        exact hr3pt d r0 h2

end DVR

namespace DVR

theorem sendAdj_dv (r : Router) : (sendAdj r).dv = r.dv := by
  unfold sendAdj; split <;> rfl

theorem sendAdj_addr (r : Router) : (sendAdj r).addr = r.addr := by
  unfold sendAdj; split <;> rfl

theorem sendAdj_outs (r : Router) : (sendAdj r).outs = r.outs := by
  unfold sendAdj; split <;> rfl

theorem sendAdj_costs (r : Router) : (sendAdj r).costs = r.costs := by
  unfold sendAdj; split <;> rfl

theorem sendAdj_conv_le (r : Router) : (sendAdj r).converged ≤ r.converged := by
  unfold sendAdj
  by_cases h : r.converged = 0
  · rw [if_pos h]
  · rw [if_neg h]; dsimp only; omega

theorem sendAdj_conv_lt (r : Router) (h : r.converged ≠ 0) :
    (sendAdj r).converged < r.converged := by
  unfold sendAdj
  rw [if_neg h]; dsimp only; omega

theorem sum_map_congr {ι : Type} (f g : ι → Nat) :
    ∀ (l : List ι), (∀ i ∈ l, f i = g i) → (l.map f).sum = (l.map g).sum
  | [], _ => rfl
  | a :: t, h => by
    simp only [List.map_cons, List.sum_cons]
    rw [h a (List.mem_cons_self _ _),
      sum_map_congr f g t (fun i hi => h i (List.mem_cons_of_mem _ hi))]

theorem all_false_exists {α : Type} (f : α → Bool) (l : List α) (h : l.all f = false) :
    ∃ x ∈ l, f x = false := by
  by_contra hc
  push_neg at hc
  have : l.all f = true := List.all_eq_true.mpr (fun x hx => by
    cases hfx : f x with
    | false => exact absurd hfx (hc x hx)
    | true => rfl)
  rw [h] at this
  exact absurd this (by simp)

/-- One non-stable step from an invariant state with empty channels
succeeds, preserves the invariant and empty channels, and strictly
decreases the termination measure. -/
theorem step_progress (As : List String) (net : Network)
    (hInv : NetInv net) (hAs : net.routers.map Prod.fst = As)
    (hqe : net.queuesEmpty = true) (hns : net.is_stable = false) :
    ∃ net', net.step = some net' ∧ NetInv net' ∧ net'.queuesEmpty = true ∧
      net'.routers.map Prod.fst = As ∧
      measureNet As net' < measureNet As net := by
  obtain ⟨ndk, qkeys, raddr, rdvkeys, rdvnn, routs, routsnd, rconv, qpok⟩ := hInv
  set net1 := net.send_dv with hnet1
  have hr1k : net1.routers.map Prod.fst = net.routers.map Prod.fst := send_dv_rkeys net
  have hq1k : net1.queues.map Prod.fst = net.queues.map Prod.fst := send_dv_qkeys net
  have hchar : ∀ d, lookupD net1.routers d =
      if d ∈ net.routers.map Prod.fst then (lookupD net.routers d).map sendAdj
      else lookupD net.routers d := send_dv_routers net ndk
  have hndk1 : (net1.routers.map Prod.fst).Nodup := by rw [hr1k]; exact ndk
  have hqknd1 : (net1.queues.map Prod.fst).Nodup := by rw [hq1k, qkeys]; exact ndk
  -- characterization of router lookups in net1 in terms of net
  have hlook1 : ∀ d r0, lookupD net.routers d = some r0 →
      lookupD net1.routers d = some (sendAdj r0) := by
    intro d r0 h0
    rw [hchar d, if_pos (mem_keys_of_lookupD net.routers d r0 h0), h0]
    rfl
  have hlook1n : ∀ d, lookupD net.routers d = none → lookupD net1.routers d = none := by
    intro d h0
    rw [hchar d]
    by_cases hd : d ∈ net.routers.map Prod.fst
    · rw [if_pos hd, h0]; rfl
    · rw [if_neg hd]; exact h0
  -- invariant pieces for net1
  have hdvinv1 : ∀ p ∈ net1.routers, ∀ e ∈ p.2.dv, e.1 ∈ As ∧ 0 ≤ e.2.2 := by
    intro p hp e he
    have hlk : lookupD net1.routers p.1 = some p.2 :=
      lookupD_of_mem_nodup net1.routers p.1 p.2 hp hndk1
    have hpk : p.1 ∈ net.routers.map Prod.fst := by
      rw [← hr1k]
      exact List.mem_map.mpr ⟨p, hp, rfl⟩
    obtain ⟨r0, h0⟩ : ∃ r0, lookupD net.routers p.1 = some r0 := by
      have hc := containsKey_of_mem_keys net.routers p.1 hpk
      unfold containsKey at hc
      cases hx : lookupD net.routers p.1 with
      | none => rw [hx] at hc; simp at hc
      | some w => exact ⟨w, rfl⟩
    rw [hlook1 p.1 r0 h0] at hlk
    simp only [Option.some_inj] at hlk
    rw [← hlk, sendAdj_dv] at he
    exact ⟨hAs ▸ rdvkeys (p.1, r0) (lookupD_mem net.routers p.1 r0 h0) e he,
      rdvnn (p.1, r0) (lookupD_mem net.routers p.1 r0 h0) e he⟩
  have hkAs1 : ∀ k ∈ net1.routers.map Prod.fst, k ∈ As := by
    rw [hr1k, hAs]; exact fun k hk => hk
  have hqok1 : ∀ p ∈ net1.queues, ∀ pk ∈ p.2, ∃ s, pk = Packet.dvp s p.1 ∧
      containsKey net1.routers s = true := by
    intro p hp pk hpk
    obtain ⟨s, he, hsk⟩ := send_dv_qpok net (net.routers.map Prod.fst) rfl qpok p hp pk hpk
    exact ⟨s, he, containsKey_of_mem_keys net1.routers s (hr1k ▸ hsk)⟩
  have hrc1 : ∀ a ∈ net1.routers.map Prod.fst, containsKey net1.routers a = true :=
    fun a ha => containsKey_of_mem_keys net1.routers a ha
  have hqc1 : ∀ a ∈ net1.routers.map Prod.fst, containsKey net1.queues a = true :=
    fun a ha => containsKey_of_mem_keys net1.queues a
      (by rw [hq1k, qkeys, ← hr1k]; exact ha)
  obtain ⟨net2, evs, hfold, hk2, hqk2, hq2ne, hq2mem, hr2ne, hr2pt, hdvinv2⟩ :=
    route_fold As (net1.routers.map Prod.fst) net1 [] hndk1 hrc1 hqc1 hqknd1
      hqok1 hdvinv1 hkAs1
  have hstep : net.step = some net2 := by
    unfold Network.step
    rw [← hnet1]
    unfold Network.route
    rw [hfold]
  have hk2' : net2.routers.map Prod.fst = As := by rw [hk2, hr1k, hAs]
  have hndk2 : (net2.routers.map Prod.fst).Nodup := by rw [hk2']; rw [← hAs]; exact ndk
  have hqknd2 : (net2.queues.map Prod.fst).Nodup := by rw [hqk2]; exact hqknd1
  -- queues of net2 are all empty
  have hq2empty : ∀ p ∈ net2.queues, p.2 = [] := by
    intro p hp
    have hlk : lookupD net2.queues p.1 = some p.2 :=
      lookupD_of_mem_nodup net2.queues p.1 p.2 hp hqknd2
    have hpk : p.1 ∈ net1.routers.map Prod.fst := by
      have : p.1 ∈ net2.queues.map Prod.fst := List.mem_map.mpr ⟨p, hp, rfl⟩
      rw [hqk2, hq1k, qkeys, ← hr1k] at this
      exact this
    rw [hq2mem p.1 hpk] at hlk
    simp only [Option.some_inj] at hlk
    exact hlk.symm
  have hqe2 : net2.queuesEmpty = true := by
    unfold Network.queuesEmpty
    exact List.all_eq_true.mpr (fun p hp => by rw [hq2empty p hp]; rfl)
  -- pointwise router relation from net to net2
  have hpt : ∀ d r0, lookupD net.routers d = some r0 →
      ∃ r2, lookupD net2.routers d = some r2 ∧
        phiDV As r2.dv ≤ phiDV As r0.dv ∧
        (r2.converged = (sendAdj r0).converged ∨
          (r2.converged = 2 ∧ phiDV As r2.dv < phiDV As r0.dv)) ∧
        r2.addr = r0.addr ∧ r2.outs = r0.outs ∧ r2.costs = r0.costs := by
    intro d r0 h0
    obtain ⟨r2, hl2, hle2, hdisj2, ha2, ho2, hc2⟩ :=
      hr2pt d (sendAdj r0) (hlook1 d r0 h0)
    rw [sendAdj_dv] at hle2 hdisj2
    rw [sendAdj_addr] at ha2
    rw [sendAdj_outs] at ho2
    rw [sendAdj_costs] at hc2
    exact ⟨r2, hl2, hle2, hdisj2, ha2, ho2, hc2⟩
  have hptn : ∀ d, lookupD net.routers d = none → lookupD net2.routers d = none := by
    intro d h0
    have h1 := hlook1n d h0
    have : d ∉ net1.routers.map Prod.fst := by
      intro hd
      have hc := containsKey_of_mem_keys net1.routers d hd
      unfold containsKey at hc
      rw [h1] at hc
      simp at hc
    rw [← hk2] at this
    exact lookupD_none_of_nmem_keys net2.routers d this
  -- counters of net2 are at most 2
  have hconv2 : ∀ p ∈ net2.routers, p.2.converged ≤ 2 := by
    intro p hp
    have hlk : lookupD net2.routers p.1 = some p.2 :=
      lookupD_of_mem_nodup net2.routers p.1 p.2 hp hndk2
    have hpk : p.1 ∈ net.routers.map Prod.fst := by
      have hx2 : p.1 ∈ net2.routers.map Prod.fst := List.mem_map.mpr ⟨p, hp, rfl⟩
      rw [hk2', ← hAs] at hx2
      exact hx2
    obtain ⟨r0, h0⟩ : ∃ r0, lookupD net.routers p.1 = some r0 := by
      have hc := containsKey_of_mem_keys net.routers p.1 hpk
      unfold containsKey at hc
      cases hx : lookupD net.routers p.1 with
      | none => rw [hx] at hc; simp at hc
      | some w => exact ⟨w, rfl⟩
    obtain ⟨r2, hl2, _, hdisj2, _, _, _⟩ := hpt p.1 r0 h0
    rw [hlk] at hl2
    simp only [Option.some_inj] at hl2
    rw [hl2]
    rcases hdisj2 with he | ⟨he, _⟩
    · rw [he]
      exact le_trans (sendAdj_conv_le r0)
        (rconv (p.1, r0) (lookupD_mem net.routers p.1 r0 h0))
    · rw [he]
  -- the invariant for net2
  have hInv2 : NetInv net2 := by
    refine ⟨hndk2, ?_, ?_, ?_, ?_, ?_, ?_, hconv2, ?_⟩
    · rw [hqk2, hq1k, qkeys, hk2']
      exact hAs
    · intro p hp
      have hlk : lookupD net2.routers p.1 = some p.2 :=
        lookupD_of_mem_nodup net2.routers p.1 p.2 hp hndk2
      have hpk : p.1 ∈ net.routers.map Prod.fst := by
        have hx2 : p.1 ∈ net2.routers.map Prod.fst := List.mem_map.mpr ⟨p, hp, rfl⟩
        rw [hk2', ← hAs] at hx2
        exact hx2
      obtain ⟨r0, h0⟩ : ∃ r0, lookupD net.routers p.1 = some r0 := by
        have hc := containsKey_of_mem_keys net.routers p.1 hpk
        unfold containsKey at hc
        cases hx : lookupD net.routers p.1 with
        | none => rw [hx] at hc; simp at hc
        | some w => exact ⟨w, rfl⟩
      obtain ⟨r2, hl2, _, _, ha2, _, _⟩ := hpt p.1 r0 h0
      rw [hlk] at hl2
      simp only [Option.some_inj] at hl2
      rw [hl2, ha2]
      exact raddr (p.1, r0) (lookupD_mem net.routers p.1 r0 h0)
    · intro p hp e he
      rw [hk2']
      exact (hdvinv2 p hp e he).1
    · intro p hp e he
      exact (hdvinv2 p hp e he).2
    · intro p hp d hd
      have hlk : lookupD net2.routers p.1 = some p.2 :=
        lookupD_of_mem_nodup net2.routers p.1 p.2 hp hndk2
      have hpk : p.1 ∈ net.routers.map Prod.fst := by
        have hx2 : p.1 ∈ net2.routers.map Prod.fst := List.mem_map.mpr ⟨p, hp, rfl⟩
        rw [hk2', ← hAs] at hx2
        exact hx2
      obtain ⟨r0, h0⟩ : ∃ r0, lookupD net.routers p.1 = some r0 := by
        have hc := containsKey_of_mem_keys net.routers p.1 hpk
        unfold containsKey at hc
        cases hx : lookupD net.routers p.1 with
        | none => rw [hx] at hc; simp at hc
        | some w => exact ⟨w, rfl⟩
      obtain ⟨r2, hl2, _, _, _, ho2, _⟩ := hpt p.1 r0 h0
      rw [hlk] at hl2
      simp only [Option.some_inj] at hl2
      rw [hl2, ho2] at hd
      rw [hk2', ← hAs]
      exact routs (p.1, r0) (lookupD_mem net.routers p.1 r0 h0) d hd
    · intro p hp
      have hlk : lookupD net2.routers p.1 = some p.2 :=
        lookupD_of_mem_nodup net2.routers p.1 p.2 hp hndk2
      have hpk : p.1 ∈ net.routers.map Prod.fst := by
        have hx2 : p.1 ∈ net2.routers.map Prod.fst := List.mem_map.mpr ⟨p, hp, rfl⟩
        rw [hk2', ← hAs] at hx2
        exact hx2
      obtain ⟨r0, h0⟩ : ∃ r0, lookupD net.routers p.1 = some r0 := by
        have hc := containsKey_of_mem_keys net.routers p.1 hpk
        unfold containsKey at hc
        cases hx : lookupD net.routers p.1 with
        | none => rw [hx] at hc; simp at hc
        | some w => exact ⟨w, rfl⟩
      obtain ⟨r2, hl2, _, _, _, ho2, _⟩ := hpt p.1 r0 h0
      rw [hlk] at hl2
      simp only [Option.some_inj] at hl2
      rw [hl2, ho2]
      exact routsnd (p.1, r0) (lookupD_mem net.routers p.1 r0 h0)
    · intro p hp pk hpk
      rw [hq2empty p hp] at hpk
      exact absurd hpk (List.not_mem_nil pk)
  -- measure decrease
  have hphile : phiNet As net2 ≤ phiNet As net := by
    refine List.sum_le_sum (fun d _ => ?_)
    cases h0 : lookupD net.routers d with
    | none => rw [hptn d h0]
    | some r0 =>
      obtain ⟨r2, hl2, hle2, _, _, _, _⟩ := hpt d r0 h0
      rw [hl2]
      exact hle2
  have hconv2le : ∀ d, (match lookupD net2.routers d with
      | none => 0
      | some r => r.converged) ≤ 2 := by
    intro d
    cases h2 : lookupD net2.routers d with
    | none => exact Nat.zero_le 2
    | some r2 =>
      exact hconv2 (d, r2) (lookupD_mem net2.routers d r2 h2)
  have hmeas : measureNet As net2 < measureNet As net := by
    unfold measureNet
    by_cases hphieq : phiNet As net2 = phiNet As net
    · -- equal potential: counters only went down, and strictly somewhere
      have hpw : ∀ d ∈ As,
          (match lookupD net2.routers d with
            | none => 0
            | some r => phiDV As r.dv) = (match lookupD net.routers d with
            | none => 0
            | some r => phiDV As r.dv) := by
        refine sum_map_eq_pointwise _ _ As (fun d _ => ?_) hphieq
        cases h0 : lookupD net.routers d with
        | none => rw [hptn d h0]
        | some r0 =>
          obtain ⟨r2, hl2, hle2, _, _, _, _⟩ := hpt d r0 h0
          rw [hl2]
          exact hle2
      have hcveq : ∀ d ∈ As, ∀ r0, lookupD net.routers d = some r0 →
          ∃ r2, lookupD net2.routers d = some r2 ∧
            r2.converged = (sendAdj r0).converged := by
        intro d hd r0 h0
        obtain ⟨r2, hl2, _, hdisj2, _, _, _⟩ := hpt d r0 h0
        refine ⟨r2, hl2, ?_⟩
        rcases hdisj2 with he | ⟨he2, hlt2⟩
        · exact he
        · exfalso
          have hx := hpw d hd
          rw [hl2, h0] at hx
          dsimp only at hx
          omega
      have hconvle : ∀ d ∈ As, (match lookupD net2.routers d with
          | none => 0
          | some r => r.converged) ≤ (match lookupD net.routers d with
          | none => 0
          | some r => r.converged) := by
        intro d hd
        cases h0 : lookupD net.routers d with
        | none => rw [hptn d h0]
        | some r0 =>
          obtain ⟨r2, hl2, hcv2⟩ := hcveq d hd r0 h0
          rw [hl2]
          dsimp only
          rw [hcv2]
          exact sendAdj_conv_le r0
      obtain ⟨p0, hp0, hf0⟩ := all_false_exists _ _ hns
      have hc0 : p0.2.converged ≠ 0 := by simpa using hf0
      have hd0 : p0.1 ∈ As := by
        rw [← hAs]
        exact List.mem_map.mpr ⟨p0, hp0, rfl⟩
      have hl0 : lookupD net.routers p0.1 = some p0.2 :=
        lookupD_of_mem_nodup net.routers p0.1 p0.2 hp0 ndk
      obtain ⟨r2s, hl2s, hcv2s⟩ := hcveq p0.1 hd0 p0.2 hl0
      have hstrict : (match lookupD net2.routers p0.1 with
          | none => 0
          | some r => r.converged) < (match lookupD net.routers p0.1 with
          | none => 0
          | some r => r.converged) := by
        rw [hl2s, hl0]
        dsimp only
        rw [hcv2s]
        exact sendAdj_conv_lt p0.2 hc0
      have hsum : convSum As net2 < convSum As net := by
        unfold convSum
        exact List.sum_lt_sum _ _ hconvle ⟨p0.1, hd0, hstrict⟩
      rw [hphieq]
      exact Nat.add_lt_add_left hsum _
    · have hphlt : phiNet As net2 < phiNet As net := lt_of_le_of_ne hphile hphieq
      have hsle : convSum As net2 ≤ 2 * As.length := by
        unfold convSum
        exact sum_map_le_two _ As (fun d _ => hconv2le d)
      calc phiNet As net2 * (2 * As.length + 1) + convSum As net2
          < phiNet As net2 * (2 * As.length + 1) + (2 * As.length + 1) := by omega
        _ = (phiNet As net2 + 1) * (2 * As.length + 1) := by ring
        _ ≤ phiNet As net * (2 * As.length + 1) := Nat.mul_le_mul_right _ hphlt
        _ ≤ phiNet As net * (2 * As.length + 1) + convSum As net := Nat.le_add_right _ _
  exact ⟨net2, hstep, hInv2, hqe2, hk2', hmeas⟩

/-- With fuel at least the termination measure, run_until_converged
succeeds from any invariant state with empty channels. -/
theorem run_fuel (As : List String) :
    ∀ (m : Nat) (net : Network), NetInv net →
      net.routers.map Prod.fst = As → net.queuesEmpty = true →
      measureNet As net ≤ m →
      ∃ n net2, Network.run_until_converged m net = some (n, net2) := by
  intro m
  induction m with
  | zero =>
    intro net hInv hAs hqe hm
    cases hs : net.is_stable with
    | true =>
      refine ⟨0, net, ?_⟩
      unfold Network.run_until_converged
      rw [hs]
      rfl
    | false =>
      obtain ⟨net2, _, _, _, _, hlt⟩ := step_progress As net hInv hAs hqe hs
      omega
  | succ f ih =>
    intro net hInv hAs hqe hm
    cases hs : net.is_stable with
    | true =>
      refine ⟨0, net, ?_⟩
      unfold Network.run_until_converged
      rw [hs]
      rfl
    | false =>
      obtain ⟨net2, hstep, hInv2, hqe2, hAs2, hlt⟩ := step_progress As net hInv hAs hqe hs
      obtain ⟨n, net3, hrun⟩ := ih net2 hInv2 hAs2 hqe2 (by omega)
      refine ⟨n + 1, net3, ?_⟩
      unfold Network.run_until_converged
      rw [hs, hstep]
      simp only [Bool.false_eq_true, if_false]
      rw [hrun]

/-! ### The freshly built network satisfies the invariant -/

theorem contains_iff_memL (l : List String) (x : String) :
    l.contains x = true ↔ x ∈ l := by
  simp

theorem mem_addAddr_self (l : List String) (x : String) : x ∈ addAddr l x := by
  unfold addAddr
  by_cases h : l.contains x
  · rw [if_pos h]
    exact (contains_iff_memL l x).mp h
  · rw [if_neg h]
    exact List.mem_append_right l (List.mem_singleton.mpr rfl)

theorem mem_addAddr_of (l : List String) (x y : String) (h : y ∈ l) : y ∈ addAddr l x := by
  unfold addAddr
  by_cases hc : l.contains x
  · rw [if_pos hc]; exact h
  · rw [if_neg hc]; exact List.mem_append_left _ h

theorem addAddr_nodup (l : List String) (x : String) (h : l.Nodup) : (addAddr l x).Nodup := by
  unfold addAddr
  by_cases hc : l.contains x
  · rw [if_pos hc]; exact h
  · rw [if_neg hc]
    refine List.Nodup.append h (List.nodup_singleton x) ?_
    intro a ha hb
    rw [List.mem_singleton] at hb
    subst hb
    exact hc ((contains_iff_memL l a).mpr ha)

theorem foldl_addAddr_mem :
    ∀ (edges : List (String × String × Int)) (acc : List String) (y : String), y ∈ acc →
      y ∈ edges.foldl (fun acc e => addAddr (addAddr acc e.1) e.2.1) acc := by
  intro edges
  induction edges with
  | nil => intro acc y h; exact h
  | cons e es ih =>
    intro acc y h
    exact ih _ y (mem_addAddr_of _ _ _ (mem_addAddr_of _ _ _ h))

theorem foldl_addAddr_nodup :
    ∀ (edges : List (String × String × Int)) (acc : List String), acc.Nodup →
      (edges.foldl (fun acc e => addAddr (addAddr acc e.1) e.2.1) acc).Nodup := by
  intro edges
  induction edges with
  | nil => intro acc h; exact h
  | cons e es ih =>
    intro acc h
    exact ih _ (addAddr_nodup _ _ (addAddr_nodup _ _ h))

theorem addrsOf_nodup (edges : List (String × String × Int)) : (addrsOf edges).Nodup :=
  foldl_addAddr_nodup edges [] List.nodup_nil

theorem endpoints_mem_foldl :
    ∀ (edges : List (String × String × Int)) (acc : List String) (e : String × String × Int),
      e ∈ edges →
      e.1 ∈ edges.foldl (fun acc e => addAddr (addAddr acc e.1) e.2.1) acc ∧
      e.2.1 ∈ edges.foldl (fun acc e => addAddr (addAddr acc e.1) e.2.1) acc := by
  intro edges
  induction edges with
  | nil => intro acc e he; exact absurd he (List.not_mem_nil e)
  | cons e0 es ih =>
    intro acc e he
    rcases List.mem_cons.mp he with he0 | he'
    · subst he0
      constructor
      · exact foldl_addAddr_mem es _ _ (mem_addAddr_of _ _ _ (mem_addAddr_self _ _))
      · exact foldl_addAddr_mem es _ _ (mem_addAddr_self _ _)
    · exact ih _ e he'

theorem endpoints_mem_addrsOf (edges : List (String × String × Int))
    (e : String × String × Int) (he : e ∈ edges) :
    e.1 ∈ addrsOf edges ∧ e.2.1 ∈ addrsOf edges :=
  endpoints_mem_foldl edges [] e he

theorem buildCosts_mem_aux :
    ∀ (edges : List (String × String × Int)) (acc : List ((String × String) × Int))
      (p : (String × String) × Int),
      p ∈ edges.foldl (fun acc e => setD acc (e.1, e.2.1) e.2.2) acc →
      p ∈ acc ∨ ∃ e ∈ edges, p = ((e.1, e.2.1), e.2.2) := by
  intro edges
  induction edges with
  | nil => intro acc p hp; exact Or.inl hp
  | cons e es ih =>
    intro acc p hp
    rcases ih (setD acc (e.1, e.2.1) e.2.2) p hp with h | ⟨e', he', hpe⟩
    · rcases mem_setD _ _ _ _ h with h1 | h2
      · exact Or.inr ⟨e, List.mem_cons_self e es, h1⟩
      · exact Or.inl h2
    · exact Or.inr ⟨e', List.mem_cons_of_mem e he', hpe⟩

theorem buildCosts_mem (edges : List (String × String × Int)) (p : (String × String) × Int)
    (hp : p ∈ buildCosts edges) : ∃ e ∈ edges, p = ((e.1, e.2.1), e.2.2) := by
  rcases buildCosts_mem_aux edges [] p hp with h | h
  · exact absurd h (List.not_mem_nil p)
  · exact h

theorem keys_setD_absent {κ β : Type} [DecidableEq κ] (l : List (κ × β)) (k : κ) (v : β)
    (h : containsKey l k = false) : (setD l k v).map Prod.fst = l.map Prod.fst ++ [k] := by
  unfold setD
  rw [if_neg (by rw [h]; exact Bool.false_ne_true)]
  simp

theorem setD_keys_nodup {κ β : Type} [DecidableEq κ] (l : List (κ × β)) (k : κ) (v : β)
    (h : (l.map Prod.fst).Nodup) : ((setD l k v).map Prod.fst).Nodup := by
  cases hc : containsKey l k with
  | true => rw [keys_setD_present l k v hc]; exact h
  | false =>
    rw [keys_setD_absent l k v hc]
    refine List.Nodup.append h (List.nodup_singleton k) ?_
    intro a ha hb
    rw [List.mem_singleton] at hb
    subst hb
    have hck := containsKey_of_mem_keys l a ha
    rw [hc] at hck
    exact Bool.false_ne_true hck

theorem buildCosts_keys_nodup_aux :
    ∀ (edges : List (String × String × Int)) (acc : List ((String × String) × Int)),
      (acc.map Prod.fst).Nodup →
      ((edges.foldl (fun acc e => setD acc (e.1, e.2.1) e.2.2) acc).map Prod.fst).Nodup := by
  intro edges
  induction edges with
  | nil => intro acc h; exact h
  | cons e es ih =>
    intro acc h
    exact ih _ (setD_keys_nodup _ _ _ h)

theorem buildCosts_keys_nodup (edges : List (String × String × Int)) :
    ((buildCosts edges).map Prod.fst).Nodup :=
  buildCosts_keys_nodup_aux edges [] List.nodup_nil

theorem myCosts_fst_nodup :
    ∀ (cs : List ((String × String) × Int)) (a : String), (cs.map Prod.fst).Nodup →
      ((cs.filterMap (fun pc => if pc.1.1 = a then some (pc.1.2, pc.2) else none)).map
        Prod.fst).Nodup := by
  intro cs
  induction cs with
  | nil => intro a _; simp
  | cons pc cs ih =>
    intro a hnd
    rw [List.map_cons, List.nodup_cons] at hnd
    by_cases hpa : pc.1.1 = a
    · simp only [List.filterMap_cons]
      rw [if_pos hpa]
      dsimp only
      rw [List.map_cons, List.nodup_cons]
      refine ⟨?_, ih a hnd.2⟩
      intro hmem
      obtain ⟨q, hq, hq1⟩ := List.mem_map.mp hmem
      obtain ⟨c, hc, hsome⟩ := List.mem_filterMap.mp hq
      by_cases hca : c.1.1 = a
      · rw [if_pos hca] at hsome
        have hqe : q = (c.1.2, c.2) := by
          injection hsome with h
          exact h.symm
        have hc12 : c.1.2 = pc.1.2 := by rw [hqe] at hq1; exact hq1
        have hkeq : c.1 = pc.1 := by
          have h1 : c.1.1 = pc.1.1 := by rw [hca, hpa]
          exact Prod.ext h1 hc12
        exact hnd.1 (List.mem_map.mpr ⟨c, hc, hkeq⟩)
      · rw [if_neg hca] at hsome
        exact Option.noConfusion hsome
    · simp only [List.filterMap_cons]
      rw [if_neg hpa]
      dsimp only
      exact ih a hnd.2

theorem build_inv (edges : List (String × String × Int))
    (hnn : ∀ e ∈ edges, 0 ≤ e.2.2) : NetInv (build edges) := by
  have hrouters : (build edges).routers =
      (addrsOf edges).map (fun a => (a, mkRouter (buildCosts edges) a)) := rfl
  have hqueues : (build edges).queues =
      (addrsOf edges).map (fun a => (a, ([] : List Packet))) := rfl
  have hks : (build edges).routers.map Prod.fst = addrsOf edges := by
    rw [hrouters, List.map_map]
    have hcomp : (Prod.fst ∘ fun a => (a, mkRouter (buildCosts edges) a)) =
        fun a : String => a := rfl
    rw [hcomp]
    exact List.map_id (addrsOf edges)
  have hdvq : ∀ (a : String) (q : String × String × Int),
      q ∈ (mkRouter (buildCosts edges) a).dv →
      q.1 ∈ addrsOf edges ∧ 0 ≤ q.2.2 := by
    intro a q hq
    have hdv : (mkRouter (buildCosts edges) a).dv =
        ((buildCosts edges).filterMap
          (fun pc => if pc.1.1 = a then some (pc.1.2, pc.2) else none)).map
          (fun dc => (dc.1, (dc.1, dc.2))) := rfl
    rw [hdv] at hq
    obtain ⟨dc, hdc, hqe⟩ := List.mem_map.mp hq
    obtain ⟨pc, hpc, hsome⟩ := List.mem_filterMap.mp hdc
    by_cases hca : pc.1.1 = a
    · rw [if_pos hca] at hsome
      have hdce : dc = (pc.1.2, pc.2) := by
        injection hsome with h
        exact h.symm
      obtain ⟨e, he, hpe⟩ := buildCosts_mem edges pc hpc
      constructor
      · have : q.1 = e.2.1 := by rw [← hqe, hdce, hpe]
        rw [this]
        exact (endpoints_mem_addrsOf edges e he).2
      · have : q.2.2 = e.2.2 := by rw [← hqe, hdce, hpe]
        rw [this]
        exact hnn e he
    · rw [if_neg hca] at hsome
      exact absurd hsome (Option.noConfusion)
  have houts : ∀ (a : String) (d : String),
      d ∈ (mkRouter (buildCosts edges) a).outs → d ∈ addrsOf edges := by
    intro a d hd
    have ho : (mkRouter (buildCosts edges) a).outs =
        ((buildCosts edges).filterMap
          (fun pc => if pc.1.1 = a then some (pc.1.2, pc.2) else none)).map Prod.fst := rfl
    rw [ho] at hd
    obtain ⟨dc, hdc, hde⟩ := List.mem_map.mp hd
    obtain ⟨pc, hpc, hsome⟩ := List.mem_filterMap.mp hdc
    by_cases hca : pc.1.1 = a
    · rw [if_pos hca] at hsome
      have hdce : dc = (pc.1.2, pc.2) := by
        injection hsome with h
        exact h.symm
      obtain ⟨e, he, hpe⟩ := buildCosts_mem edges pc hpc
      have : d = e.2.1 := by rw [← hde, hdce, hpe]
      rw [this]
      exact (endpoints_mem_addrsOf edges e he).2
    · rw [if_neg hca] at hsome
      exact absurd hsome (Option.noConfusion)
  refine ⟨?_, ?_, ?_, ?_, ?_, ?_, ?_, ?_, ?_⟩
  · rw [hks]; exact addrsOf_nodup edges
  · rw [hrouters, hqueues, List.map_map, List.map_map]
    rfl
  · intro p hp
    rw [hrouters] at hp
    obtain ⟨a, _, hpe⟩ := List.mem_map.mp hp
    rw [← hpe]
    rfl
  · intro p hp q hq
    rw [hrouters] at hp
    obtain ⟨a, _, hpe⟩ := List.mem_map.mp hp
    rw [← hpe] at hq
    rw [hks]
    exact (hdvq a q hq).1
  · intro p hp q hq
    rw [hrouters] at hp
    obtain ⟨a, _, hpe⟩ := List.mem_map.mp hp
    rw [← hpe] at hq
    exact (hdvq a q hq).2
  · intro p hp d hd
    rw [hrouters] at hp
    obtain ⟨a, _, hpe⟩ := List.mem_map.mp hp
    rw [← hpe] at hd
    rw [hks]
    exact houts a d hd
  · intro p hp
    rw [hrouters] at hp
    obtain ⟨a, _, hpe⟩ := List.mem_map.mp hp
    rw [← hpe]
    exact myCosts_fst_nodup (buildCosts edges) a (buildCosts_keys_nodup edges)
  · intro p hp
    rw [hrouters] at hp
    obtain ⟨a, _, hpe⟩ := List.mem_map.mp hp
    rw [← hpe]
    exact Nat.le_refl 2
  · intro p hp pk hpk
    rw [hqueues] at hp
    obtain ⟨a, _, hpe⟩ := List.mem_map.mp hp
    rw [← hpe] at hpk
    exact absurd hpk (List.not_mem_nil pk)

theorem build_queuesEmpty (edges : List (String × String × Int)) :
    (build edges).queuesEmpty = true := by
  have hqueues : (build edges).queues =
      (addrsOf edges).map (fun a => (a, ([] : List Packet))) := rfl
  unfold Network.queuesEmpty
  rw [hqueues]
  refine List.all_eq_true.mpr ?_
  intro aq haq
  obtain ⟨a, _, hpe⟩ := List.mem_map.mp haq
  rw [← hpe]
  rfl

/-- C3: Convergence liveness — for every network built from a finite
topology whose link costs are non-negative integers, run_until_converged
terminates (some fuel makes the modelled while loop stop) and returns a
finite step count. -/
theorem C3_run_terminates (edges : List (String × String × Int))
    (hnn : ∀ e ∈ edges, 0 ≤ e.2.2) :
    ∃ f n net2, Network.run_until_converged f (build edges) = some (n, net2) := by
  obtain ⟨n, net2, h⟩ := run_fuel ((build edges).routers.map Prod.fst)
    (measureNet ((build edges).routers.map Prod.fst) (build edges)) (build edges)
    (build_inv edges hnn) rfl (build_queuesEmpty edges) (Nat.le_refl _)
  exact ⟨measureNet ((build edges).routers.map Prod.fst) (build edges), n, net2, h⟩

/-- Witness for C3 on the two-node topology A-B with unit costs. -/
theorem C3_witness :
    (∀ e ∈ [("A", "B", (1 : Int)), ("B", "A", (1 : Int))], 0 ≤ e.2.2) ∧
      ∃ f n net2, Network.run_until_converged f
        (build [("A", "B", (1 : Int)), ("B", "A", (1 : Int))]) = some (n, net2) :=
  ⟨by decide, C3_run_terminates [("A", "B", (1 : Int)), ("B", "A", (1 : Int))] (by decide)⟩

end DVR
